import Mathlib

/-!
Verification of the lyric-translation core of the GreatUniHack2025 repository.

The definitions below are shallow embeddings of the Python sources:
  * `translation-library/lyric_formatter.py` (preprocessor, segmenter, reassembler),
  * `backend/translation_helpers.py` (`translate_batch_sync`),
  * `backend/translation_library/deepl_translator.py` (`DeepLTranslator`),
  * `backend/translation_library/translation_cache.py` (`TranslationCache`),
  * `backend/main.py` (`translate_lines_overlay` synced-lines branch, `translate_word`).

Conventions used throughout:
  * Python strings are Lean `String`s; the text algorithms are written over
    `List Char` and wrapped.
  * Python's `\s` character class and `str.strip()` are modelled over their
    ASCII meaning (space, tab, newline, carriage return, form feed, vertical
    tab); all inputs considered by the claims are ASCII.
  * Python exceptions become the `PyError` sum type and `Except` results.
  * External network and cache backends are oracles passed as arguments: a
    function's result may depend on the oracle only if the Python code
    actually performs the corresponding call.
-/

/-- ASCII model of Python's `\s` class (and of `str.strip()`'s whitespace). -/
def isWS (c : Char) : Bool :=
  c = ' ' || c = '\t' || c = '\n' || c = '\r' || c = '\x0b' || c = '\x0c'

/-- The characters matched by the regex class `[ \t]` in `preprocess_lyrics`. -/
def isHT (c : Char) : Bool := c = ' ' || c = '\t'

/-- Drop trailing whitespace characters (the right half of `str.strip()`). -/
def dropTrailWS : List Char → List Char
  | [] => []
  | c :: cs =>
    let r := dropTrailWS cs
    if r.isEmpty && isWS c then [] else c :: r

/-- Python `str.strip()` on character lists: drop leading and trailing whitespace. -/
def stripWS (cs : List Char) : List Char := dropTrailWS (cs.dropWhile isWS)

/-- Python `str.strip()` on strings. -/
def pyStripS (s : String) : String := String.mk (stripWS s.data)

/-- Embeds `re.sub(r'[ \t]+', ' ', text)`: replace each maximal run of spaces/tabs by a
single space.  The Boolean flag records whether we are inside a run whose first
character was already replaced. -/
def collHT : Bool → List Char → List Char
  | _, [] => []
  | inRun, c :: cs =>
    if isHT c then
      if inRun then collHT true cs else ' ' :: collHT true cs
    else c :: collHT false cs

/-- Scanner for the whitespace run following an already-consumed `'\n'`:
walks the maximal `\s*` prefix, remembering the suffix just after the most
recent `'\n'` seen.  Returning `some rest` means the greedy regex engine can
close the match with a final `'\n'`, resuming at `rest`. -/
def scanNl : List Char → Option (List Char) → Option (List Char)
  | [], best => best
  | c :: cs, best =>
    if isWS c then scanNl cs (if c = '\n' then some cs else best) else best

/-- Greedy search for the closing `'\n'` of `\n\s+\n` (at least one whitespace
character between the two newlines): the first character after the opening
newline must itself be whitespace. -/
def scanNlPlus : List Char → Option (List Char)
  | [] => none
  | c :: cs => if isWS c then scanNl cs none else none

/-- Greedy search for the closing `'\n'` of `\n\s*\n` (possibly zero whitespace
characters between the newlines). -/
def scanNlStar (cs : List Char) : Option (List Char) := scanNl cs none

/-- Embeds `re.sub(r'\n\s+\n', '\n\n', text)`, fuelled by the input length so that the
recursion is structural (the fuel argument strictly decreases). -/
def sub2F : Nat → List Char → List Char
  | 0, _ => []
  | _ + 1, [] => []
  | f + 1, c :: cs =>
    if c = '\n' then
      match scanNlPlus cs with
      | some rest => '\n' :: '\n' :: sub2F f rest
      | none => '\n' :: sub2F f cs
    else c :: sub2F f cs

/-- Embeds `re.sub(r'\n\s+\n', '\n\n', text)` with adequate fuel. -/
def sub2 (cs : List Char) : List Char := sub2F cs.length cs

/-- Embeds `LyricFormatter.preprocess_lyrics`, `List Char` core: collapse horizontal
whitespace, canonicalise blank-line separators, strip the ends. -/
def preprocessL (cs : List Char) : List Char := stripWS (sub2 (collHT false cs))

/-- Embeds `LyricFormatter.preprocess_lyrics`. -/
def preprocess_lyrics (t : String) : String := String.mk (preprocessL t.data)

/-- Embeds `re.split(r'\n\s*\n', text)`, fuelled; `acc` is the current piece, reversed. -/
def splitParaF : Nat → List Char → List Char → List (List Char)
  | 0, _, acc => [acc.reverse]
  | _ + 1, [], acc => [acc.reverse]
  | f + 1, c :: cs, acc =>
    if c = '\n' then
      match scanNlStar cs with
      | some rest => acc.reverse :: splitParaF f rest []
      | none => splitParaF f cs (c :: acc)
    else splitParaF f cs (c :: acc)

/-- Embeds `re.split(r'\n\s*\n', text)`: split into paragraph candidates. -/
def splitPara (cs : List Char) : List (List Char) := splitParaF cs.length cs []

/-- Python `str.split('\n')`; `acc` is the current piece, reversed. -/
def splitNlF : List Char → List Char → List (List Char)
  | [], acc => [acc.reverse]
  | c :: cs, acc =>
    if c = '\n' then acc.reverse :: splitNlF cs [] else splitNlF cs (c :: acc)

/-- Python `str.split('\n')`. -/
def splitNl (cs : List Char) : List (List Char) := splitNlF cs []

/-- The greedy line-accumulation loop of `split_into_segments` for one
over-long paragraph: flush the buffer when adding the next line would exceed
`maxLen` and the buffer is non-empty, otherwise append the line plus `'\n'`.
Lengths are compared as integers because the Python bound may be negative. -/
def splitLongLoop (maxLen : Int) : List (List Char) → List Char → List (List Char)
  | [], current => if current.isEmpty then [] else [stripWS current]
  | ln :: rest, current =>
    if ((current.length + ln.length : Int) > maxLen && !current.isEmpty) then
      stripWS current :: splitLongLoop maxLen rest ln
    else
      splitLongLoop maxLen rest (current ++ ln ++ ['\n'])

/-- Split one over-long paragraph candidate by its lines. -/
def splitLong (seg : List Char) (maxLen : Int) : List (List Char) :=
  splitLongLoop maxLen (splitNl seg) []

/-- Per-paragraph step of `split_into_segments`: short candidates are emitted
as-is, long ones go through the line loop. -/
def processPiece (maxLen : Int) (seg : List Char) : List (List Char) :=
  if (seg.length : Int) ≤ maxLen then [seg] else splitLong seg maxLen

/-- Embeds `LyricFormatter.split_into_segments`, `List Char` core. -/
def split_into_segmentsL (cs : List Char) (maxLen : Int) : List (List Char) :=
  ((splitPara cs).map (processPiece maxLen)).flatten

/-- Embeds `LyricFormatter.split_into_segments`.  The Python function performs no
validation of `max_segment_length` and has no failure path, so it is total. -/
def split_into_segments (text : String) (maxLen : Int) : List String :=
  (split_into_segmentsL text.data maxLen).map String.mk

/-- Python `sep.join(liste)`. -/
def pyJoin (sep : List Char) : List (List Char) → List Char
  | [] => []
  | [p] => p
  | p :: ps => p ++ sep ++ pyJoin sep ps

/-- Python `sep.join(liste)` on strings. -/
def pyJoinS (sep : String) : List String → String
  | [] => ""
  | [p] => p
  | p :: ps => p ++ sep ++ pyJoinS sep ps

/-- A translated segment as consumed by `LyricFormatter.reassemble_segments`
(only the `translated_text` field of the dictionary is read). -/
structure SegTrans where
  translated_text : String
deriving DecidableEq, Repr

/-- Embeds `LyricFormatter.reassemble_segments`: join the translated texts with the
paragraph separator. -/
def reassemble_segments (ts : List SegTrans) : String :=
  pyJoinS "\n\n" (ts.map SegTrans.translated_text)

/-- The exception taxonomy of `translation_library/exceptions.py`, together
with the two built-in Python exceptions that the sources can raise
(`ImportError` in `TranslationCache.__init__`; `other` covers raw built-ins
such as `IndexError`).  All of these derive from `Exception`, so a Python
`except Exception` handler catches every constructor. -/
inductive PyError where
  | rateLimit (msg : String)
  | invalidLanguage (msg : String)
  | translationFailed (msg : String)
  | importError (msg : String)
  | other (msg : String)
deriving DecidableEq, Repr

deriving instance DecidableEq for Except

/-- A translation result dictionary as built by `translate_batch_sync` and
`DeepLTranslator.translate_lyrics` (the `confidence` field of the latter is
carried by no claim and is omitted; no caller reads it). -/
structure TransResult where
  original_text : String
  translated_text : String
  detected_language : Option String
  target_language : String
deriving DecidableEq, Repr

/-- A decoded DeepL HTTP response: status code plus the `translations` array,
each entry carrying `text` and the (possibly null) `detected_source_language`. -/
structure DeepLResp where
  status : Nat
  translations : List (String × Option String)
deriving DecidableEq, Repr

/-- The static `DeepLTranslator.SUPPORTED_LANGUAGES` table (keys only; the
display names are never used for validation). -/
def SUPPORTED_LANGUAGES : List String :=
  ["AR", "BG", "CS", "DA", "DE", "EL", "EN", "EN-GB", "EN-US", "ES", "ET",
   "FI", "FR", "HU", "ID", "IT", "JA", "KO", "LT", "LV", "NB", "NL", "PL",
   "PT", "PT-BR", "PT-PT", "RO", "RU", "SK", "SL", "SV", "TR", "UK", "ZH"]

/-- Python `str.upper()` (ASCII), written over the character list so that it
evaluates by kernel reduction. -/
def pyUpper (s : String) : String := String.mk (s.data.map Char.toUpper)

/-- Membership test `lang_code.upper() in SUPPORTED_LANGUAGES`. -/
def supportedLang (code : String) : Bool :=
  SUPPORTED_LANGUAGES.contains (pyUpper code)

/-- Python truthiness of an optional string (`None` and `""` are falsy). -/
def pyTruthyOpt : Option String → Bool
  | none => false
  | some s => !(s == "")

/-- The state of the external redis store: whether the server is reachable and
the key/value pairs it holds.  Stored values are kept as `TransResult`s; the
JSON serialisation round-trip of `translation_cache.py` is identity on them. -/
structure RedisState where
  reachable : Bool
  store : List (String × TransResult)
deriving DecidableEq, Repr

/-- Raw `redis.get`: raises `redis.RedisError` when the backend is down. -/
def redis_get (st : RedisState) (k : String) : Except Unit (Option TransResult) :=
  if st.reachable then .ok (st.store.lookup k) else .error ()

/-- Raw `redis.setex` (TTL ignored by the model): raises when the backend is down. -/
def redis_setex (st : RedisState) (k : String) (v : TransResult) :
    Except Unit RedisState :=
  if st.reachable then .ok ⟨st.reachable, (k, v) :: st.store⟩ else .error ()

/-- Embeds `TranslationCache.get`: the `try`/`except (redis.RedisError,
json.JSONDecodeError)` body returning `None` on any backend error. -/
def cache_get (st : RedisState) (k : String) : Option TransResult :=
  match redis_get st k with
  | .error _ => none
  | .ok v => v

/-- Embeds `TranslationCache.set`: `try`/`except redis.RedisError: pass`, so the
store is left unchanged when the backend errors. -/
def cache_set (st : RedisState) (k : String) (v : TransResult) : RedisState :=
  match redis_setex st k v with
  | .error _ => st
  | .ok st' => st'

/-- Embeds `TranslationCache.__init__`: raises `ImportError` when the `redis` module
is not importable, otherwise connects lazily (no error even if unreachable). -/
def translationCacheInit (redisAvailable : Bool) (st : RedisState) :
    Except PyError RedisState :=
  if redisAvailable then .ok st
  else .error (.importError "Redis is not installed. Install it with: pip install redis")

/-- A constructed `DeepLTranslator`: resolved API key plus the optional cache. -/
structure Translator where
  apiKey : String
  cache : Option RedisState
deriving DecidableEq, Repr

/-- Embeds `DeepLTranslator.__init__`: resolve the key (argument, else environment,
empty string modelling falsy), fail without a key, and build the
`TranslationCache` when `use_cache` is set — propagating its `ImportError`. -/
def deepLTranslatorInit (apiKey envKey : String) (useCache redisAvailable : Bool)
    (st : RedisState) : Except PyError Translator :=
  let k := if apiKey ≠ "" then apiKey else envKey
  if k = "" then
    .error (.translationFailed "DeepL API key is required. Set DEEPL_API_KEY environment variable or pass api_key parameter.")
  else if useCache then
    match translationCacheInit redisAvailable st with
    | .error e => .error e
    | .ok c => .ok ⟨k, some c⟩
  else .ok ⟨k, none⟩

/-- The cache key of `translate_lyrics`: source (or auto), target and a
fingerprint of the text, colon-separated.
Python's builtin `hash` is modelled by the text itself (an injective
fingerprint); no claim depends on the key's shape. -/
def cacheKey (source : Option String) (target text : String) : String :=
  (if pyTruthyOpt source then source.getD "" else "auto") ++ ":" ++ target ++ ":" ++ text

/-- Embeds `DeepLTranslator.translate_lyrics` (lines 46-123 of
`deepl_translator.py`): validate target and (truthy) source against the static
table, consult the cache, then perform the HTTP call described by the oracle
`resp`; a 429 raises `RateLimitError`, any other non-200 raises
`TranslationError`, a requests-level failure raises `TranslationError`.
Returns the result paired with the resulting cache state. -/
def translate_lyrics (apiKey text target_lang : String) (source_lang : Option String)
    (useCache : Bool) (st : RedisState) (resp : Except Unit DeepLResp) :
    Except PyError TransResult × RedisState :=
  if apiKey = "" then
    (.error (.translationFailed "DeepL API key is required. Set DEEPL_API_KEY environment variable or pass api_key parameter."), st)
  else if target_lang ≠ "" && !supportedLang target_lang then
    (.error (.invalidLanguage ("Unsupported target language: " ++ target_lang)), st)
  else if pyTruthyOpt source_lang && !supportedLang (source_lang.getD "") then
    (.error (.invalidLanguage ("Unsupported source language: " ++ source_lang.getD "")), st)
  else
    let key := cacheKey source_lang target_lang text
    match (if useCache then cache_get st key else none) with
    | some cached => (.ok cached, st)
    | none =>
      match resp with
      | .error _ => (.error (.translationFailed "Network error"), st)
      | .ok r =>
        if r.status = 429 then
          (.error (.rateLimit "DeepL API rate limit exceeded"), st)
        else if r.status ≠ 200 then
          (.error (.translationFailed "DeepL API error"), st)
        else
          match r.translations with
          | [] => (.error (.other "IndexError"), st)
          | (trText, det) :: _ =>
            let result : TransResult := ⟨text, trText, det, target_lang⟩
            (.ok result, if useCache then cache_set st key result else st)

/-- Embeds `translate_helpers.translate_batch_sync` (lines 39-121): construct a
cache-less translator (failing without a key), send every text in one request,
map a 429 to `RateLimitError`, any other non-200 to `TranslationError`, and a
requests-level failure to `TranslationError`; on 200, pair the returned
translations positionally with the input texts (Python indexes `texts[i]` for
each returned translation, an `IndexError` if the API returned extra items;
`zip` below matches it because the guard excludes the longer case).  No
language validation is performed anywhere in this function. -/
def translate_batch_sync (apiKey : String) (texts : List String)
    (target_lang : String) (_source_lang : Option String)
    (resp : Except Unit DeepLResp) : Except PyError (List TransResult) :=
  if apiKey = "" then
    .error (.translationFailed "DeepL API key is required. Set DEEPL_API_KEY environment variable or pass api_key parameter.")
  else
    match resp with
    | .error _ => .error (.translationFailed "Network error")
    | .ok r =>
      if r.status = 429 then .error (.rateLimit "DeepL API rate limit exceeded")
      else if r.status ≠ 200 then .error (.translationFailed "DeepL API error")
      else if texts.length < r.translations.length then .error (.other "IndexError")
      else
        .ok ((texts.zip r.translations).map
          (fun p => ⟨p.1, p.2.1, p.2.2, target_lang⟩))

/-- A synced lyric line (`lyrics_helpers.LyricsLine`). -/
structure LyricsLine where
  text : String
  timestamp_ms : Int
deriving DecidableEq, Repr

/-- An output line of `/translate-lines` (`main.OverlayLine`); `timestamp_ms`
defaults to `None` for the plain-text branch. -/
structure OverlayLine where
  original : String
  translated : String
  timestamp_ms : Option Int
deriving DecidableEq, Repr

/-- The constant `BATCH_SIZE` of `translate_lines_overlay`. -/
def BATCH_SIZE : Nat := 20

/-- Python `enumerate` starting at `i`. -/
def withIdx : Nat → List α → List (Nat × α)
  | _, [] => []
  | i, a :: l => (i, a) :: withIdx (i + 1) l

/-- Embeds `range(0, len(l), k)` chunking: consecutive chunks of `k` elements, fuelled
by the list length (adequate for `k ≥ 1`). -/
def chunksOfF : Nat → Nat → List α → List (List α)
  | _, _, [] => []
  | 0, _, _ :: _ => []
  | f + 1, k, l => l.take k :: chunksOfF f k (l.drop k)

/-- Embeds `range(0, len(l), k)` chunking with adequate fuel. -/
def chunksOf (k : Nat) (l : List α) : List (List α) := chunksOfF l.length k l

/-- Embeds `request.lines[idx]` (always in bounds in the route; default irrelevant). -/
def lineAt (lines : List LyricsLine) (i : Nat) : LyricsLine :=
  lines.getD i ⟨"", 0⟩

/-- Build the `OverlayLine` stored for a successfully translated synced line. -/
def mkOv (l : LyricsLine) (tr : String) : OverlayLine :=
  ⟨l.text, tr, some l.timestamp_ms⟩

/-- The initial `overlay_lines` array of the synced branch: whitespace-only
lines are filled in directly with empty original/translated text, the others
are left as `None` placeholders. -/
def initOverlay (lines : List LyricsLine) : List (Option OverlayLine) :=
  lines.map fun l =>
    if pyStripS l.text = "" then some ⟨"", "", some l.timestamp_ms⟩ else none

/-- The `(line.text, idx)` pairs queued for translation: the non-empty lines
(`lines_to_translate` zipped with `translate_indices`). -/
def todoOf (lines : List LyricsLine) : List (String × Nat) :=
  ((withIdx 0 lines).filter fun p => pyStripS p.2.text ≠ "").map
    fun p => (p.2.text, p.1)

/-- Success path of one batch: `for result, idx in zip(results, batch_indices)`
writes `OverlayLine(original=line.text, translated=result['translated_text'])`
at each index. -/
def applyBatchOk (lines : List LyricsLine) (results : List TransResult)
    (idxs : List Nat) (ov : List (Option OverlayLine)) : List (Option OverlayLine) :=
  (results.zip idxs).foldl
    (fun ov p => ov.set p.2 (some (mkOv (lineAt lines p.2) p.1.translated_text))) ov

/-- Fallback path of one batch (`except Exception` handler): one
`translate_lyrics_sync` call per item, in order; a per-item failure stores the
original text as the translated value, and never aborts the loop. -/
def applyFallback (lines : List LyricsLine)
    (itemCall : Nat → String → Except PyError TransResult)
    (chunk : List (String × Nat)) (ov : List (Option OverlayLine)) :
    List (Option OverlayLine) :=
  chunk.foldl
    (fun ov p =>
      match itemCall p.2 p.1 with
      | .ok r => ov.set p.2 (some (mkOv (lineAt lines p.2) r.translated_text))
      | .error _ => ov.set p.2 (some (mkOv (lineAt lines p.2) (lineAt lines p.2).text)))
    ov

/-- One iteration of the batch loop: the `try` block around the
`translate_batch_sync` call.  The `except Exception` clause matches every
`PyError` constructor — `RateLimitError` included — so any batch error takes
the per-item fallback path. -/
def processChunk (lines : List LyricsLine)
    (itemCall : Nat → String → Except PyError TransResult)
    (chunk : List (String × Nat)) (res : Except PyError (List TransResult))
    (ov : List (Option OverlayLine)) : List (Option OverlayLine) :=
  match res with
  | .ok results => applyBatchOk lines results (chunk.map Prod.snd) ov
  | .error _ => applyFallback lines itemCall chunk ov

/-- The synced-lines branch of `translate_lines_overlay` (main.py lines
452-524).  `batchCall k texts` is the outcome of the `translate_batch_sync`
call for the `k`-th batch (the oracle is keyed by batch ordinal because the
external service may answer successive calls differently); `itemCall idx text`
is the outcome of the fallback `translate_lyrics_sync` call for the line at
global index `idx`.  The route's `detected_language` accumulator and the
inter-batch `asyncio.sleep` only affect metadata and timing, not the returned
lines, and are not modelled. -/
def translateLinesSynced (lines : List LyricsLine)
    (batchCall : Nat → List String → Except PyError (List TransResult))
    (itemCall : Nat → String → Except PyError TransResult) :
    List (Option OverlayLine) :=
  let todo := todoOf lines
  (withIdx 0 (chunksOf BATCH_SIZE todo)).foldl
    (fun ov p => processChunk lines itemCall p.2 (batchCall p.1 (p.2.map Prod.fst)) ov)
    (initOverlay lines)

/-- Python `\w` (word character), ASCII meaning. -/
def isWordChar (c : Char) : Bool := c.isAlphanum || c = '_'

/-- Embeds `re.sub(r'[^\w\s]', '', word).strip()`: drop the characters that are
neither word characters nor whitespace, then strip. -/
def cleanWord (w : String) : String :=
  pyStripS (String.mk (w.data.filter fun c => isWordChar c || isWS c))

/-- The response model of `/translate-word` (`main.WordTranslationResponse`);
`detected_language` defaults to `None`. -/
structure WordResp where
  original_word : String
  translated_word : String
  target_language : String
  detected_language : Option String
deriving DecidableEq, Repr

/-- Embeds `translate_word` (main.py lines 611-647): clean the word; when nothing
remains, answer immediately with the word echoed back and no detected
language; otherwise call `translate_lyrics_sync` (the oracle `call`) on the
cleaned word.  The wrapping of errors into HTTP responses is outside the
claims and omitted. -/
def translate_word (word target_lang : String)
    (call : String → Except PyError TransResult) : Except PyError WordResp :=
  let clean := cleanWord word
  if clean = "" then .ok ⟨word, word, target_lang, none⟩
  else
    match call clean with
    | .ok r => .ok ⟨word, r.translated_text, target_lang, r.detected_language⟩
    | .error e => .error e


/-! ### Whitespace-run invariants of the preprocessor -/

/-- Predicate `wsNl cs`: a `'\n'` is reachable from the start of `cs` through
whitespace (the maximal whitespace run at the front of `cs` contains a
newline). -/
def wsNl : List Char → Bool
  | [] => false
  | c :: cs => c = '\n' || (isWS c && wsNl cs)

/-- Predicate `nlGe1 cs`: the pattern `\s+\n` matches a front of `cs`: a closing newline
exists at index at least 1 of the whitespace run starting `cs`. -/
def nlGe1 : List Char → Bool
  | [] => false
  | c :: cs => isWS c && wsNl cs

/-- Predicate `noNWN cs`: no occurrence of `\n\s+\n` anywhere in `cs`.  This is the
normal form established by `re.sub(r'\n\s+\n', '\n\n', ·)`. -/
def noNWN : List Char → Bool
  | [] => true
  | c :: cs => (if c = '\n' then !nlGe1 cs else true) && noNWN cs

theorem isWS_of_nl {c : Char} (h : c = '\n') : isWS c = true := by
  subst h; rfl

theorem noNWN_tail {c : Char} {cs : List Char} (h : noNWN (c :: cs) = true) :
    noNWN cs = true := by
  simp only [noNWN, Bool.and_eq_true] at h
  exact h.2

theorem noNWN_cons_nl {cs : List Char} (h : noNWN ('\n' :: cs) = true) :
    nlGe1 cs = false := by
  simp only [noNWN, Bool.and_eq_true] at h
  have h1 := h.1
  simp only [if_pos rfl] at h1
  simpa using h1

theorem noNWN_cons_of {c : Char} {cs : List Char} (h1 : noNWN cs = true)
    (h2 : c = '\n' → nlGe1 cs = false) : noNWN (c :: cs) = true := by
  simp only [noNWN, Bool.and_eq_true]
  refine ⟨?_, h1⟩
  by_cases hc : c = '\n'
  · simp [hc, h2 hc]
  · simp [hc]

theorem wsNl_append_right {p : List Char} (t : List Char) (h : wsNl p = true) :
    wsNl (p ++ t) = true := by
  induction p with
  | nil => simp [wsNl] at h
  | cons c cs ih =>
    simp only [wsNl, Bool.or_eq_true, Bool.and_eq_true] at h ⊢
    rcases h with h1 | ⟨h2, h3⟩
    · exact Or.inl h1
    · exact Or.inr ⟨h2, ih h3⟩

theorem wsNl_front {p t : List Char} (h : wsNl (p ++ t) = false) :
    wsNl p = false := by
  cases hw : wsNl p with
  | false => rfl
  | true => rw [wsNl_append_right t hw] at h; cases h

theorem nlGe1_front {p t : List Char} (h : nlGe1 (p ++ t) = false) :
    nlGe1 p = false := by
  cases p with
  | nil => rfl
  | cons c cs =>
    simp only [List.cons_append, nlGe1, Bool.and_eq_false_iff] at h ⊢
    rcases h with h1 | h2
    · exact Or.inl h1
    · exact Or.inr (wsNl_front h2)

theorem noNWN_front : ∀ {l : List Char} (t : List Char),
    noNWN (l ++ t) = true → noNWN l = true
  | [], _, _ => rfl
  | c :: cs, t, h => by
    rw [List.cons_append] at h
    simp only [noNWN, Bool.and_eq_true] at h ⊢
    refine ⟨?_, noNWN_front t h.2⟩
    by_cases hc : c = '\n'
    · subst hc
      have h1 := h.1
      rw [if_pos rfl] at h1
      rw [if_pos rfl]
      have h2 : nlGe1 (cs ++ t) = false := by simpa using h1
      simpa using nlGe1_front h2
    · simp [hc]

theorem noNWN_suffix : ∀ {t l : List Char}, noNWN (t ++ l) = true → noNWN l = true
  | [], _, h => h
  | _ :: ts, _, h => noNWN_suffix (t := ts) (noNWN_tail h)

/-! ### Properties of the greedy newline scanners -/

theorem scanNl_of_wsNl_false : ∀ {cs : List Char} (best : Option (List Char)),
    wsNl cs = false → scanNl cs best = best
  | [], _, _ => rfl
  | c :: cs, best, h => by
    simp only [wsNl, Bool.or_eq_false_iff, Bool.and_eq_false_iff] at h
    obtain ⟨h1, h2⟩ := h
    unfold scanNl
    rcases h2 with h3 | h3
    · simp [h3]
    · cases hw : isWS c with
      | false => simp [hw]
      | true =>
        simp only [hw, if_pos rfl]
        have hbest : (if c = '\n' then some cs else best) = best := by
          simp [show ¬(c = '\n') by simpa using h1]
        rw [hbest]
        exact scanNl_of_wsNl_false best h3

theorem scanNl_none : ∀ {cs : List Char} {best : Option (List Char)},
    scanNl cs best = none → wsNl cs = false ∧ best = none
  | [], best, h => by simpa [scanNl, wsNl] using h
  | c :: cs, best, h => by
    unfold scanNl at h
    cases hw : isWS c with
    | true =>
      rw [hw, if_pos rfl] at h
      have ih := scanNl_none h
      by_cases hn : c = '\n'
      · rw [if_pos hn] at ih
        cases ih.2
      · rw [if_neg hn] at ih
        exact ⟨by simp [wsNl, hn, ih.1], ih.2⟩
    | false =>
      rw [hw] at h
      simp only [Bool.false_eq_true, if_false] at h
      have hn : c ≠ '\n' := fun hc => by rw [isWS_of_nl hc] at hw; cases hw
      exact ⟨by simp [wsNl, hn, hw], h⟩

theorem scanNl_some : ∀ {cs : List Char} {best : Option (List Char)}
    {rest : List Char}, scanNl cs best = some rest →
    (best = some rest ∧ wsNl cs = false) ∨ (wsNl rest = false ∧ wsNl cs = true)
  | [], best, rest, h => by
    simp only [scanNl] at h
    exact Or.inl ⟨h, rfl⟩
  | c :: cs, best, rest, h => by
    unfold scanNl at h
    cases hw : isWS c with
    | false =>
      rw [hw] at h
      simp only [Bool.false_eq_true, if_false] at h
      have hn : c ≠ '\n' := fun hc => by rw [isWS_of_nl hc] at hw; cases hw
      exact Or.inl ⟨h, by simp [wsNl, hn, hw]⟩
    | true =>
      rw [hw, if_pos rfl] at h
      rcases scanNl_some h with ⟨h1, h2⟩ | ⟨h1, h2⟩
      · by_cases hn : c = '\n'
        · rw [if_pos hn] at h1
          injection h1 with h1
          subst h1
          exact Or.inr ⟨h2, by simp [wsNl, hn]⟩
        · rw [if_neg hn] at h1
          exact Or.inl ⟨h1, by simp [wsNl, hn, hw, h2]⟩
      · exact Or.inr ⟨h1, by simp [wsNl, hw, h2]⟩

theorem scanNl_length : ∀ {cs : List Char} {best : Option (List Char)}
    {rest : List Char}, scanNl cs best = some rest →
    best = some rest ∨ rest.length < cs.length
  | [], best, rest, h => by
    simp only [scanNl] at h
    exact Or.inl h
  | c :: cs, best, rest, h => by
    unfold scanNl at h
    cases hw : isWS c with
    | false =>
      rw [hw] at h
      simp only [Bool.false_eq_true, if_false] at h
      exact Or.inl h
    | true =>
      rw [hw, if_pos rfl] at h
      rcases scanNl_length h with h1 | h1
      · by_cases hn : c = '\n'
        · rw [if_pos hn] at h1
          injection h1 with h1
          subst h1
          exact Or.inr (by simp)
        · rw [if_neg hn] at h1
          exact Or.inl h1
      · exact Or.inr (Nat.lt_trans h1 (by simp))

theorem scanNl_suffix : ∀ {cs : List Char} {best : Option (List Char)}
    {rest : List Char}, scanNl cs best = some rest →
    best = some rest ∨ ∃ t, t ++ rest = cs
  | [], best, rest, h => by
    simp only [scanNl] at h
    exact Or.inl h
  | c :: cs, best, rest, h => by
    unfold scanNl at h
    cases hw : isWS c with
    | false =>
      rw [hw] at h
      simp only [Bool.false_eq_true, if_false] at h
      exact Or.inl h
    | true =>
      rw [hw, if_pos rfl] at h
      rcases scanNl_suffix h with h1 | ⟨t, ht⟩
      · by_cases hn : c = '\n'
        · rw [if_pos hn] at h1
          injection h1 with h1
          subst h1
          exact Or.inr ⟨[c], rfl⟩
        · rw [if_neg hn] at h1
          exact Or.inl h1
      · exact Or.inr ⟨c :: t, by simp [ht]⟩

theorem scanNlPlus_none_of_wsNl {cs : List Char} (h : wsNl cs = false) :
    scanNlPlus cs = none := by
  cases cs with
  | nil => rfl
  | cons c cs =>
    simp only [wsNl, Bool.or_eq_false_iff, Bool.and_eq_false_iff] at h
    obtain ⟨h1, h2⟩ := h
    unfold scanNlPlus
    rcases h2 with h3 | h3
    · simp [h3]
    · cases hw : isWS c with
      | false => simp [hw]
      | true =>
        simp only [hw, if_pos rfl]
        exact scanNl_of_wsNl_false none h3

theorem scanNlPlus_none_of_nlGe1 {cs : List Char} (h : nlGe1 cs = false) :
    scanNlPlus cs = none := by
  cases cs with
  | nil => rfl
  | cons c cs =>
    simp only [nlGe1, Bool.and_eq_false_iff] at h
    unfold scanNlPlus
    rcases h with h1 | h1
    · simp [h1]
    · cases hw : isWS c with
      | false => simp [hw]
      | true =>
        simp only [hw, if_pos rfl]
        exact scanNl_of_wsNl_false none h1

theorem scanNlPlus_none_nlGe1 {cs : List Char} (h : scanNlPlus cs = none) :
    nlGe1 cs = false := by
  cases cs with
  | nil => rfl
  | cons c cs =>
    simp only [scanNlPlus] at h
    cases hw : isWS c with
    | false => simp [nlGe1, hw]
    | true =>
      rw [hw, if_pos rfl] at h
      have := scanNl_none h
      simp [nlGe1, hw, this.1]

theorem scanNlPlus_some_wsNl {cs rest : List Char} (h : scanNlPlus cs = some rest) :
    wsNl rest = false := by
  cases cs with
  | nil => cases h
  | cons c cs =>
    simp only [scanNlPlus] at h
    cases hw : isWS c with
    | false => rw [hw] at h; simp at h
    | true =>
      rw [hw, if_pos rfl] at h
      rcases scanNl_some h with ⟨h1, _⟩ | ⟨h1, _⟩
      · cases h1
      · exact h1

theorem scanNlPlus_some_length {cs rest : List Char} (h : scanNlPlus cs = some rest) :
    rest.length + 2 ≤ cs.length := by
  cases cs with
  | nil => cases h
  | cons c cs =>
    simp only [scanNlPlus] at h
    cases hw : isWS c with
    | false => rw [hw] at h; simp at h
    | true =>
      rw [hw, if_pos rfl] at h
      rcases scanNl_length h with h1 | h1
      · cases h1
      · simpa [Nat.succ_le_iff] using h1

theorem scanNlPlus_some_suffix {cs rest : List Char} (h : scanNlPlus cs = some rest) :
    ∃ t, t ++ rest = cs := by
  cases cs with
  | nil => cases h
  | cons c cs =>
    simp only [scanNlPlus] at h
    cases hw : isWS c with
    | false => rw [hw] at h; simp at h
    | true =>
      rw [hw, if_pos rfl] at h
      rcases scanNl_suffix h with h1 | ⟨t, ht⟩
      · cases h1
      · exact ⟨c :: t, by simp [ht]⟩

theorem scanNlStar_none_of_wsNl {cs : List Char} (h : wsNl cs = false) :
    scanNlStar cs = none :=
  scanNl_of_wsNl_false none h

theorem scanNlStar_some_adj {cs rest : List Char} (h : scanNlStar cs = some rest)
    (hge : nlGe1 cs = false) : cs = '\n' :: rest := by
  cases cs with
  | nil => cases h
  | cons c cs =>
    simp only [scanNlStar] at h
    unfold scanNl at h
    simp only [nlGe1, Bool.and_eq_false_iff] at hge
    cases hw : isWS c with
    | false => rw [hw] at h; simp at h
    | true =>
      rw [hw, if_pos rfl] at h
      rcases hge with h1 | h1
      · rw [hw] at h1; cases h1
      · rw [scanNl_of_wsNl_false _ h1] at h
        by_cases hn : c = '\n'
        · rw [if_pos hn] at h
          injection h with h
          rw [hn, h]
        · rw [if_neg hn] at h
          cases h

theorem scanNlStar_some_length {cs rest : List Char} (h : scanNlStar cs = some rest) :
    rest.length < cs.length := by
  rcases scanNl_length h with h1 | h1
  · cases h1
  · exact h1

/-! ### `sub2` establishes and preserves the `noNWN` normal form -/

theorem sub2F_wsNl : ∀ (f : Nat) {cs : List Char}, wsNl cs = false →
    wsNl (sub2F f cs) = false
  | 0, _, _ => rfl
  | _ + 1, [], _ => rfl
  | f + 1, c :: cs, h => by
    simp only [wsNl, Bool.or_eq_false_iff, Bool.and_eq_false_iff] at h
    obtain ⟨h1, h2⟩ := h
    simp only [sub2F, if_neg (by simpa using h1)]
    rcases h2 with h3 | h3
    · simp [wsNl, h1, h3]
    · simp [wsNl, h1, sub2F_wsNl f h3]

theorem sub2F_cons_head (f : Nat) (d : Char) (ds : List Char) :
    ∃ tl, sub2F (f + 1) (d :: ds) = d :: tl := by
  by_cases hn : d = '\n'
  · subst hn
    simp only [sub2F, if_pos rfl]
    cases hs : scanNlPlus ds with
    | some rest => exact ⟨'\n' :: sub2F f rest, rfl⟩
    | none => exact ⟨sub2F f ds, rfl⟩
  · simp only [sub2F, if_neg hn]
    exact ⟨sub2F f ds, rfl⟩

theorem sub2F_nlGe1_of_wsNl : ∀ (f : Nat) {cs : List Char}, wsNl cs = false →
    nlGe1 (sub2F f cs) = false
  | 0, _, _ => rfl
  | _ + 1, [], _ => rfl
  | f + 1, c :: cs, h => by
    simp only [wsNl, Bool.or_eq_false_iff, Bool.and_eq_false_iff] at h
    obtain ⟨h1, h2⟩ := h
    simp only [sub2F, if_neg (by simpa using h1)]
    rcases h2 with h3 | h3
    · simp [nlGe1, h3]
    · simp [nlGe1, sub2F_wsNl f h3]

theorem sub2F_nlGe1_of_scan_none : ∀ (f : Nat) {cs : List Char},
    scanNlPlus cs = none → nlGe1 (sub2F f cs) = false
  | 0, _, _ => rfl
  | _ + 1, [], _ => rfl
  | f + 1, c :: cs, h => by
    simp only [scanNlPlus] at h
    cases hw : isWS c with
    | false =>
      have hn : c ≠ '\n' := fun hc => by rw [isWS_of_nl hc] at hw; cases hw
      simp only [sub2F, if_neg hn]
      simp [nlGe1, hw]
    | true =>
      rw [hw, if_pos rfl] at h
      have hws : wsNl cs = false := (scanNl_none h).1
      by_cases hn : c = '\n'
      · subst hn
        simp only [sub2F, if_pos rfl, scanNlPlus_none_of_wsNl hws]
        simp [nlGe1, sub2F_wsNl f hws]
      · simp only [sub2F, if_neg hn]
        simp [nlGe1, hw, sub2F_wsNl f hws]

theorem sub2F_noNWN : ∀ (f : Nat) {cs : List Char}, cs.length ≤ f →
    noNWN (sub2F f cs) = true
  | 0, _, _ => rfl
  | _ + 1, [], _ => rfl
  | f + 1, c :: cs, hf => by
    have hcs : cs.length ≤ f := by simpa [Nat.succ_le_succ_iff] using hf
    by_cases hn : c = '\n'
    · subst hn
      simp only [sub2F, if_pos rfl]
      cases hs : scanNlPlus cs with
      | none =>
        exact noNWN_cons_of (sub2F_noNWN f hcs) fun _ => sub2F_nlGe1_of_scan_none f hs
      | some rest =>
        have hrest : wsNl rest = false := scanNlPlus_some_wsNl hs
        have hlen : rest.length ≤ f := by
          have := scanNlPlus_some_length hs
          omega
        refine noNWN_cons_of (noNWN_cons_of (sub2F_noNWN f hlen) ?_) ?_
        · exact fun _ => sub2F_nlGe1_of_wsNl f hrest
        · intro _
          simp [nlGe1, sub2F_wsNl f hrest]
    · simp only [sub2F, if_neg hn]
      exact noNWN_cons_of (sub2F_noNWN f hcs) fun hc => absurd hc hn

theorem sub2F_eq_self : ∀ (f : Nat) {cs : List Char}, cs.length ≤ f →
    noNWN cs = true → sub2F f cs = cs
  | 0, cs, hf, _ => by
    have : cs = [] := List.length_eq_zero.mp (Nat.le_zero.mp hf)
    simp [this, sub2F]
  | _ + 1, [], _, _ => rfl
  | f + 1, c :: cs, hf, h => by
    have hcs : cs.length ≤ f := by simpa [Nat.succ_le_succ_iff] using hf
    have htail := noNWN_tail h
    by_cases hn : c = '\n'
    · subst hn
      simp only [sub2F, if_pos rfl, scanNlPlus_none_of_nlGe1 (noNWN_cons_nl h)]
      rw [sub2F_eq_self f hcs htail]
      simp
    · simp only [sub2F, if_neg hn]
      rw [sub2F_eq_self f hcs htail]

/-! ### The horizontal-whitespace normal form established by `collHT` -/

/-- Predicate `htNormal cs`: no tab characters and no two adjacent spaces — the normal
form established by `re.sub(r'[ \t]+', ' ', ·)`. -/
def htNormal : List Char → Bool
  | [] => true
  | [c] => !(c = '\t')
  | c :: c' :: cs => !(c = '\t') && !(c = ' ' && c' = ' ') && htNormal (c' :: cs)

theorem htNormal_tail : ∀ {c : Char} {cs : List Char},
    htNormal (c :: cs) = true → htNormal cs = true
  | _, [], _ => rfl
  | c, c' :: cs, h => by
    simp only [htNormal, Bool.and_eq_true] at h
    exact h.2

theorem htNormal_not_tab : ∀ {c : Char} {cs : List Char},
    htNormal (c :: cs) = true → c ≠ '\t'
  | c, [], h => by simpa [htNormal] using h
  | c, c' :: cs, h => by
    simp only [htNormal, Bool.and_eq_true] at h
    simpa using h.1.1

theorem htNormal_pair : ∀ {c c' : Char} {cs : List Char},
    htNormal (c :: c' :: cs) = true → ¬(c = ' ' ∧ c' = ' ') := by
  intro c c' cs h
  simp only [htNormal, Bool.and_eq_true] at h
  intro hp
  have := h.1.2
  simp [hp.1, hp.2] at this

theorem htNormal_cons_of {c : Char} {cs : List Char} (h1 : htNormal cs = true)
    (h2 : c ≠ '\t') (h3 : ∀ d ds, cs = d :: ds → ¬(c = ' ' ∧ d = ' ')) :
    htNormal (c :: cs) = true := by
  cases cs with
  | nil => simpa [htNormal] using h2
  | cons d ds =>
    simp only [htNormal, Bool.and_eq_true]
    refine ⟨⟨by simpa using h2, ?_⟩, h1⟩
    have := h3 d ds rfl
    by_cases hc : c = ' '
    · by_cases hd : d = ' '
      · exact absurd ⟨hc, hd⟩ this
      · simp [hd]
    · simp [hc]

theorem htNormal_front : ∀ {l : List Char} (t : List Char),
    htNormal (l ++ t) = true → htNormal l = true
  | [], _, _ => rfl
  | c :: cs, t, h => by
    rw [List.cons_append] at h
    refine htNormal_cons_of (htNormal_front t (htNormal_tail h)) (htNormal_not_tab h) ?_
    intro d ds hds
    subst hds
    exact htNormal_pair (by simpa using h)

theorem htNormal_suffix : ∀ {t l : List Char}, htNormal (t ++ l) = true →
    htNormal l = true
  | [], _, h => h
  | _ :: ts, _, h => htNormal_suffix (t := ts) (htNormal_tail h)

theorem collHT_true_eq : ∀ (cs : List Char),
    collHT true cs = collHT false (cs.dropWhile isHT)
  | [] => rfl
  | c :: cs => by
    cases hh : isHT c with
    | true =>
      simp only [collHT, hh, if_pos rfl, List.dropWhile_cons, if_pos rfl]
      exact collHT_true_eq cs
    | false => simp [collHT, hh, List.dropWhile_cons]

theorem collHT_false_head_not_ht : ∀ {cs : List Char} {d : Char} {ds : List Char},
    (∀ e es, cs = e :: es → isHT e = false) → collHT false cs = d :: ds →
    isHT d = false := by
  intro cs d ds hhead h
  cases cs with
  | nil => cases h
  | cons e es =>
    have he := hhead e es rfl
    simp only [collHT, he, Bool.false_eq_true, if_false] at h
    injection h with h1 _
    rw [← h1]
    exact he

theorem dropWhile_head_false : ∀ {p : Char → Bool} {cs : List Char} {d : Char}
    {ds : List Char}, cs.dropWhile p = d :: ds → p d = false := by
  intro p cs
  induction cs with
  | nil => intro d ds h; cases h
  | cons e es ih =>
    intro d ds h
    rw [List.dropWhile_cons] at h
    by_cases hp : p e = true
    · rw [if_pos hp] at h
      exact ih h
    · rw [if_neg hp] at h
      injection h with h1 _
      rw [← h1]
      simpa using hp

theorem dropWhile_length_le (p : Char → Bool) :
    ∀ (cs : List Char), (cs.dropWhile p).length ≤ cs.length
  | [] => Nat.le_refl _
  | c :: cs => by
    rw [List.dropWhile_cons]
    by_cases hp : p c = true
    · rw [if_pos hp]
      exact Nat.le_trans (dropWhile_length_le p cs) (Nat.le_succ _)
    · rw [if_neg hp]

theorem collHT_htNormal : ∀ (n : Nat) {cs : List Char}, cs.length ≤ n →
    htNormal (collHT false cs) = true
  | 0, cs, hf => by
    have : cs = [] := List.length_eq_zero.mp (Nat.le_zero.mp hf)
    simp [this, collHT, htNormal]
  | n + 1, [], _ => rfl
  | n + 1, c :: cs, hf => by
    have hcs : cs.length ≤ n := by simpa [Nat.succ_le_succ_iff] using hf
    cases hh : isHT c with
    | false =>
      simp only [collHT, hh, Bool.false_eq_true, if_false]
      refine htNormal_cons_of (collHT_htNormal n hcs) ?_ ?_
      · intro hc
        rw [hc] at hh
        exact absurd hh (by decide)
      · intro d ds _ hp
        rw [hp.1] at hh
        exact absurd hh (by decide)
    | true =>
      simp only [collHT, hh, if_pos rfl]
      rw [collHT_true_eq]
      have hlen : (cs.dropWhile isHT).length ≤ n :=
        le_trans (dropWhile_length_le isHT cs) hcs
      refine htNormal_cons_of (collHT_htNormal n hlen) (by decide) ?_
      intro d ds hds hp
      have : isHT d = false :=
        collHT_false_head_not_ht (fun e es he => dropWhile_head_false he) hds
      rw [hp.2] at this
      exact absurd this (by decide)

theorem collHT_eq_self : ∀ {cs : List Char}, htNormal cs = true →
    collHT false cs = cs
  | [], _ => rfl
  | c :: cs, h => by
    cases hh : isHT c with
    | false =>
      simp only [collHT, hh, Bool.false_eq_true, if_false]
      rw [collHT_eq_self (htNormal_tail h)]
    | true =>
      have hc : c = ' ' := by
        have hct := htNormal_not_tab h
        rcases (by simpa [isHT] using hh : c = ' ' ∨ c = '\t') with h1 | h1
        · exact h1
        · exact absurd h1 hct
      cases cs with
      | nil =>
        subst hc
        simp [collHT]
      | cons d ds =>
        have hd : isHT d = false := by
          have hpair := htNormal_pair h
          have hdtab : d ≠ '\t' := htNormal_not_tab (htNormal_tail h)
          have hdsp : d ≠ ' ' := fun hds => hpair ⟨hc, hds⟩
          simp [isHT, hdsp, hdtab]
        have ih := collHT_eq_self (htNormal_tail h)
        subst hc
        have step : collHT false (' ' :: d :: ds) = ' ' :: collHT true (d :: ds) := rfl
        rw [step, collHT_true_eq, List.dropWhile_cons, hd]
        simp only [Bool.false_eq_true, if_false]
        exact congrArg (' ' :: ·) ih

/-! ### `sub2` preserves the horizontal normal form -/

theorem sub2F_nil : ∀ (f : Nat), sub2F f [] = []
  | 0 => rfl
  | _ + 1 => rfl

theorem sub2F_htNormal : ∀ (f : Nat) {cs : List Char}, cs.length ≤ f →
    htNormal cs = true → htNormal (sub2F f cs) = true
  | 0, _, _, _ => rfl
  | _ + 1, [], _, _ => rfl
  | f + 1, c :: cs, hf, h => by
    have hcs : cs.length ≤ f := by simpa [Nat.succ_le_succ_iff] using hf
    by_cases hn : c = '\n'
    · subst hn
      simp only [sub2F, if_pos rfl]
      cases hs : scanNlPlus cs with
      | none =>
        refine htNormal_cons_of (sub2F_htNormal f hcs (htNormal_tail h)) (by decide) ?_
        intro d ds _ hp
        cases hp.1
      | some rest =>
        obtain ⟨t, ht⟩ := scanNlPlus_some_suffix hs
        have hrest : htNormal rest = true := by
          refine htNormal_suffix (t := t) ?_
          rw [ht]
          exact htNormal_tail h
        have hlen : rest.length ≤ f := by
          have := scanNlPlus_some_length hs
          omega
        refine htNormal_cons_of (htNormal_cons_of (sub2F_htNormal f hlen hrest)
          (by decide) ?_) (by decide) ?_
        · intro d ds _ hp
          cases hp.1
        · intro d ds _ hp
          cases hp.1
    · simp only [sub2F, if_neg hn]
      cases cs with
      | nil =>
        rw [sub2F_nil]
        exact h
      | cons d ds =>
        obtain ⟨tl, htl⟩ := sub2F_cons_head (f - 1) d ds
        have hf1 : f - 1 + 1 = f := by
          have : 1 ≤ f := by
            have := hcs
            simp at this
            omega
          omega
        rw [hf1] at htl
        refine htNormal_cons_of (sub2F_htNormal f hcs (htNormal_tail h))
          (htNormal_not_tab h) ?_
        intro e es hees hp
        rw [htl] at hees
        injection hees with he _
        refine htNormal_pair h ⟨hp.1, ?_⟩
        rw [he]
        exact hp.2

/-! ### `strip` lemmas -/

theorem dropTrailWS_isPre : ∀ (z : List Char), ∃ t, dropTrailWS z ++ t = z
  | [] => ⟨[], rfl⟩
  | c :: cs => by
    obtain ⟨t0, ht0⟩ := dropTrailWS_isPre cs
    simp only [dropTrailWS]
    by_cases hb : (dropTrailWS cs).isEmpty && isWS c
    · rw [if_pos hb]
      exact ⟨c :: cs, rfl⟩
    · rw [if_neg hb]
      exact ⟨t0, by simp [ht0]⟩

theorem dropTrailWS_head : ∀ (c : Char) (cs : List Char),
    dropTrailWS (c :: cs) = [] ∨ ∃ r, dropTrailWS (c :: cs) = c :: r := by
  intro c cs
  simp only [dropTrailWS]
  by_cases hb : (dropTrailWS cs).isEmpty && isWS c
  · rw [if_pos hb]
    exact Or.inl rfl
  · rw [if_neg hb]
    exact Or.inr ⟨dropTrailWS cs, rfl⟩

theorem dropTrailWS_idem : ∀ (z : List Char), dropTrailWS (dropTrailWS z) = dropTrailWS z
  | [] => rfl
  | c :: cs => by
    simp only [dropTrailWS]
    by_cases hb : (dropTrailWS cs).isEmpty && isWS c
    · rw [if_pos hb]
      rfl
    · rw [if_neg hb]
      simp only [dropTrailWS, dropTrailWS_idem cs]
      rw [if_neg hb]

theorem stripWS_idem (z : List Char) : stripWS (stripWS z) = stripWS z := by
  unfold stripWS
  rcases hq : z.dropWhile isWS with _ | ⟨e, es⟩
  · simp [dropTrailWS]
  · rcases dropTrailWS_head e es with h1 | ⟨t, ht⟩
    · rw [h1]
      rfl
    · rw [ht, List.dropWhile_cons, dropWhile_head_false hq]
      simp only [Bool.false_eq_true, if_false]
      rw [← ht, dropTrailWS_idem, ht]

theorem stripWS_htNormal {z : List Char} (h : htNormal z = true) :
    htNormal (stripWS z) = true := by
  unfold stripWS
  have h1 : htNormal (z.dropWhile isWS) = true := by
    have := List.takeWhile_append_dropWhile isWS z
    exact htNormal_suffix (t := z.takeWhile isWS) (by rw [this]; exact h)
  obtain ⟨t, ht⟩ := dropTrailWS_isPre (z.dropWhile isWS)
  exact htNormal_front t (by rw [ht]; exact h1)

theorem stripWS_noNWN {z : List Char} (h : noNWN z = true) :
    noNWN (stripWS z) = true := by
  unfold stripWS
  have h1 : noNWN (z.dropWhile isWS) = true := by
    have := List.takeWhile_append_dropWhile isWS z
    exact noNWN_suffix (t := z.takeWhile isWS) (by rw [this]; exact h)
  obtain ⟨t, ht⟩ := dropTrailWS_isPre (z.dropWhile isWS)
  exact noNWN_front t (by rw [ht]; exact h1)

/-! ### C5: the preprocessor is idempotent -/

theorem preprocessL_htNormal (cs : List Char) : htNormal (preprocessL cs) = true := by
  unfold preprocessL sub2
  refine stripWS_htNormal (sub2F_htNormal _ (Nat.le_refl _) ?_)
  exact collHT_htNormal cs.length (Nat.le_refl _)

theorem preprocessL_noNWN (cs : List Char) : noNWN (preprocessL cs) = true := by
  unfold preprocessL sub2
  exact stripWS_noNWN (sub2F_noNWN _ (Nat.le_refl _))

theorem preprocessL_stripped (cs : List Char) :
    stripWS (preprocessL cs) = preprocessL cs := by
  unfold preprocessL
  exact stripWS_idem _

theorem preprocessL_idem (cs : List Char) :
    preprocessL (preprocessL cs) = preprocessL cs := by
  conv_lhs => rw [preprocessL]
  rw [collHT_eq_self (preprocessL_htNormal cs)]
  rw [show sub2 (preprocessL cs) = preprocessL cs from
    sub2F_eq_self _ (Nat.le_refl _) (preprocessL_noNWN cs)]
  exact preprocessL_stripped cs

theorem string_data_eq {a b : String} (h : a.data = b.data) : a = b := by
  cases a
  cases b
  exact congrArg String.mk h

/-- C5.  The preprocessor is a pure function of its input (it is a Lean
function by construction) and idempotent: preprocessing twice equals
preprocessing once, for every text. -/
theorem preprocess_lyrics_idem (t : String) :
    preprocess_lyrics (preprocess_lyrics t) = preprocess_lyrics t := by
  unfold preprocess_lyrics
  exact congrArg String.mk (preprocessL_idem t.data)

/-! ### C2: paragraph-split reconstruction -/

theorem splitParaF_ne_nil : ∀ (f : Nat) (cs acc : List Char),
    splitParaF f cs acc ≠ []
  | 0, _, _ => by simp [splitParaF]
  | _ + 1, [], _ => by simp [splitParaF]
  | f + 1, c :: cs, acc => by
    by_cases hn : c = '\n'
    · simp only [splitParaF, if_pos hn]
      cases hs : scanNlStar cs with
      | some rest => simp
      | none => exact splitParaF_ne_nil f cs (c :: acc)
    · simp only [splitParaF, if_neg hn]
      exact splitParaF_ne_nil f cs (c :: acc)

theorem pyJoin_cons (sep p : List Char) {ps : List (List Char)} (h : ps ≠ []) :
    pyJoin sep (p :: ps) = p ++ sep ++ pyJoin sep ps := by
  cases ps with
  | nil => exact absurd rfl h
  | cons q qs => rfl

theorem splitParaF_join : ∀ (f : Nat) {cs : List Char} (acc : List Char),
    cs.length ≤ f → noNWN cs = true →
    pyJoin ['\n', '\n'] (splitParaF f cs acc) = acc.reverse ++ cs
  | 0, cs, acc, hf, _ => by
    have : cs = [] := List.length_eq_zero.mp (Nat.le_zero.mp hf)
    simp [this, splitParaF, pyJoin]
  | _ + 1, [], acc, _, _ => by simp [splitParaF, pyJoin]
  | f + 1, c :: cs, acc, hf, h => by
    have hcs : cs.length ≤ f := by simpa [Nat.succ_le_succ_iff] using hf
    by_cases hn : c = '\n'
    · subst hn
      have hstep : splitParaF (f + 1) ('\n' :: cs) acc =
          match scanNlStar cs with
          | some rest => acc.reverse :: splitParaF f rest []
          | none => splitParaF f cs ('\n' :: acc) := rfl
      rw [hstep]
      cases hs : scanNlStar cs with
      | none =>
        rw [splitParaF_join f _ hcs (noNWN_tail h)]
        simp
      | some rest =>
        have hadj : cs = '\n' :: rest := scanNlStar_some_adj hs (noNWN_cons_nl h)
        have hrest : noNWN rest = true := noNWN_tail (hadj ▸ noNWN_tail h)
        have hlen : rest.length ≤ f := by
          have := scanNlStar_some_length hs
          omega
        rw [pyJoin_cons _ _ (splitParaF_ne_nil f rest [])]
        rw [splitParaF_join f [] hlen hrest]
        rw [hadj]
        simp
    · simp only [splitParaF, if_neg hn]
      rw [splitParaF_join f _ hcs (noNWN_tail h)]
      simp

theorem splitPara_join {cs : List Char} (h : noNWN cs = true) :
    pyJoin ['\n', '\n'] (splitPara cs) = cs := by
  unfold splitPara
  rw [splitParaF_join cs.length [] (Nat.le_refl _) h]
  rfl

theorem flatten_of_singletons {ps : List (List Char)} {g : List Char → List (List Char)}
    (h : ∀ p ∈ ps, g p = [p]) : (ps.map g).flatten = ps := by
  induction ps with
  | nil => rfl
  | cons p ps ih =>
    simp only [List.map_cons, List.flatten_cons]
    rw [h p (List.mem_cons_self p ps), ih fun q hq => h q (List.mem_cons_of_mem p hq)]
    rfl

theorem pyJoinS_data (sep : String) : ∀ (l : List String),
    (pyJoinS sep l).data = pyJoin sep.data (l.map String.data)
  | [] => rfl
  | [p] => rfl
  | p :: q :: ps => by
    have ih := pyJoinS_data sep (q :: ps)
    show ((p ++ sep) ++ pyJoinS sep (q :: ps)).data = _
    rw [String.data_append, String.data_append, ih,
      show List.map String.data (p :: q :: ps)
        = p.data :: List.map String.data (q :: ps) from rfl,
      pyJoin_cons sep.data p.data (by simp)]

/-- C2 (amended).  When every paragraph candidate of the preprocessed text
fits in `maxLen`, reassembling the segments (each translated to itself) with
the paragraph separator reproduces the preprocessed text exactly. -/
theorem segment_reconstruction (t : String) (L : Int) (_hL : 0 < L)
    (hfit : ∀ p ∈ splitPara (preprocess_lyrics t).data, (p.length : Int) ≤ L) :
    reassemble_segments ((split_into_segments (preprocess_lyrics t) L).map SegTrans.mk)
      = preprocess_lyrics t := by
  have hseg : split_into_segmentsL (preprocess_lyrics t).data L
      = splitPara (preprocess_lyrics t).data := by
    unfold split_into_segmentsL
    refine flatten_of_singletons fun p hp => ?_
    unfold processPiece
    rw [if_pos (hfit p hp)]
  have hnwn : noNWN (preprocess_lyrics t).data = true := by
    show noNWN (String.mk (preprocessL t.data)).data = true
    exact preprocessL_noNWN t.data
  refine string_data_eq ?_
  unfold reassemble_segments split_into_segments
  rw [List.map_map, List.map_map]
  rw [show ((SegTrans.translated_text ∘ SegTrans.mk) ∘ String.mk)
    = String.mk from rfl]
  rw [pyJoinS_data, List.map_map]
  rw [show (String.data ∘ String.mk) = id from rfl, List.map_id]
  rw [hseg]
  rw [show ("\n\n" : String).data = ['\n', '\n'] from rfl]
  exact splitPara_join hnwn

/-- C7 (amended).  On empty input the segmenter returns exactly one segment,
the empty string, for every `maxLen` (positive, zero or negative). -/
theorem segment_empty_input : ∀ (L : Int), split_into_segments "" L = [""] := by
  intro L
  show (split_into_segmentsL [] L).map String.mk = [""]
  have hsp : splitPara ([] : List Char) = [[]] := rfl
  unfold split_into_segmentsL
  rw [hsp]
  by_cases h : ((([] : List Char).length : Int)) ≤ L
  · simp only [List.map_cons, List.map_nil, processPiece, if_pos h]
    rfl
  · simp only [List.map_cons, List.map_nil, processPiece, if_neg h]
    show ([splitLong [] L].flatten).map String.mk = [""]
    have : splitLong [] L = [[]] := by
      unfold splitLong splitNl
      show splitLongLoop L [[]] [] = [[]]
      unfold splitLongLoop
      simp only [List.isEmpty_nil, Bool.not_true, Bool.and_false,
        Bool.false_eq_true, if_false]
      rfl
    rw [this]
    rfl

/-! ### C8: behaviour of the segmenter for non-positive `maxLen` -/

theorem mem_dropWhile_ws {a : Char} {z : List Char}
    (h : a ∈ z.dropWhile isWS) : a ∈ z := by
  have := List.takeWhile_append_dropWhile isWS z
  rw [← this]
  exact List.mem_append_right _ h

theorem mem_dropTrailWS {a : Char} {z : List Char} (h : a ∈ dropTrailWS z) :
    a ∈ z := by
  obtain ⟨t, ht⟩ := dropTrailWS_isPre z
  rw [← ht]
  exact List.mem_append_left _ h

theorem mem_stripWS {a : Char} {z : List Char} (h : a ∈ stripWS z) : a ∈ z :=
  mem_dropWhile_ws (mem_dropTrailWS h)

theorem dropTrailWS_append_ws {c : Char} (hc : isWS c = true) :
    ∀ (z : List Char), dropTrailWS (z ++ [c]) = dropTrailWS z
  | [] => by simp [dropTrailWS, hc]
  | d :: ds => by
    show dropTrailWS (d :: (ds ++ [c])) = _
    simp only [dropTrailWS]
    rw [dropTrailWS_append_ws hc ds]

theorem stripWS_append_nl {ln : List Char} :
    stripWS (ln ++ ['\n']) = stripWS ln := by
  unfold stripWS
  rw [List.dropWhile_append]
  by_cases he : (ln.dropWhile isWS).isEmpty
  · rw [if_pos he]
    have : ln.dropWhile isWS = [] := by
      cases h : ln.dropWhile isWS with
      | nil => rfl
      | cons a l => rw [h] at he; simp at he
    rw [this]
    rfl
  · rw [if_neg he]
    exact dropTrailWS_append_ws (by decide) _

theorem splitNlF_no_nl : ∀ {cs acc : List Char}, '\n' ∉ acc →
    ∀ p ∈ splitNlF cs acc, '\n' ∉ p
  | [], acc, hacc, p, hp => by
    simp only [splitNlF, List.mem_singleton] at hp
    subst hp
    simpa using hacc
  | c :: cs, acc, hacc, p, hp => by
    by_cases hn : c = '\n'
    · rw [splitNlF, if_pos hn] at hp
      rcases List.mem_cons.mp hp with h1 | h1
      · subst h1
        simpa using hacc
      · exact splitNlF_no_nl (by simp) p h1
    · rw [splitNlF, if_neg hn] at hp
      refine splitNlF_no_nl ?_ p hp
      intro hmem
      rcases List.mem_cons.mp hmem with h1 | h1
      · exact hn h1.symm
      · exact hacc h1

theorem splitNl_no_nl {cs : List Char} : ∀ p ∈ splitNl cs, '\n' ∉ p :=
  splitNlF_no_nl (by simp)

theorem splitLongLoop_no_nl {L : Int} (hL : L ≤ 0) :
    ∀ (lns : List (List Char)) (current : List Char),
    (∀ ln ∈ lns, '\n' ∉ ln) →
    ('\n' ∉ current ∨ ∃ ln0, '\n' ∉ ln0 ∧ current = ln0 ++ ['\n']) →
    ∀ s ∈ splitLongLoop L lns current, '\n' ∉ s := by
  intro lns
  induction lns with
  | nil =>
    intro current _ hcur s hs
    unfold splitLongLoop at hs
    by_cases he : current.isEmpty
    · rw [if_pos he] at hs
      simp at hs
    · rw [if_neg he] at hs
      rw [List.mem_singleton] at hs
      subst hs
      rcases hcur with h1 | ⟨ln0, hln0, hln0e⟩
      · exact fun hm => h1 (mem_stripWS hm)
      · rw [hln0e, stripWS_append_nl]
        exact fun hm => hln0 (mem_stripWS hm)
  | cons ln rest ih =>
    intro current hlns hcur s hs
    unfold splitLongLoop at hs
    by_cases hc : ((current.length + ln.length : Int) > L && !current.isEmpty) = true
    · rw [if_pos hc] at hs
      rcases List.mem_cons.mp hs with h1 | h1
      · subst h1
        rcases hcur with h2 | ⟨ln0, hln0, hln0e⟩
        · exact fun hm => h2 (mem_stripWS hm)
        · rw [hln0e, stripWS_append_nl]
          exact fun hm => hln0 (mem_stripWS hm)
      · refine ih ln (fun l hl => hlns l (List.mem_cons_of_mem _ hl))
          (Or.inl (hlns ln (List.mem_cons_self _ _))) s h1
    · rw [if_neg hc] at hs
      have hcure : current = [] := by
        by_contra hne
        apply hc
        have h1 : current.isEmpty = false := by
          cases current with
          | nil => exact absurd rfl hne
          | cons a l => rfl
        have h2 : (current.length + ln.length : Int) > L := by
          have h3 : 1 ≤ current.length := by
            cases current with
            | nil => exact absurd rfl hne
            | cons a l => simp
          have h4 : (1 : Int) ≤ (current.length : Int) := by exact_mod_cast h3
          omega
        rw [h1]
        simp [h2]
      subst hcure
      refine ih ([] ++ ln ++ ['\n'])
        (fun l hl => hlns l (List.mem_cons_of_mem _ hl)) ?_ s hs
      exact Or.inr ⟨ln, hlns ln (List.mem_cons_self _ _), by simp⟩

/-- C8 (amended).  A non-positive `maxLen` is accepted without any error: the
segmenter returns normally (the embedded function is total because the Python
function has no failure path), and every segment it returns is a single line
(contains no newline), each paragraph having been broken at line boundaries. -/
theorem segment_nonpositive_maxlen (t : String) (L : Int) (hL : L ≤ 0) :
    ∀ s ∈ split_into_segments t L, '\n' ∉ s.data := by
  intro s hs
  unfold split_into_segments at hs
  rcases List.mem_map.mp hs with ⟨l, hl, hmk⟩
  subst hmk
  show '\n' ∉ l
  unfold split_into_segmentsL at hl
  rcases List.mem_flatten.mp hl with ⟨piece, hpiece, hlp⟩
  rcases List.mem_map.mp hpiece with ⟨p, hpmem, hpp⟩
  rw [← hpp] at hlp
  unfold processPiece at hlp
  by_cases hfit : (p.length : Int) ≤ L
  · rw [if_pos hfit, List.mem_singleton] at hlp
    subst hlp
    have h0 : l.length = 0 := by omega
    rw [List.length_eq_zero.mp h0]
    simp
  · rw [if_neg hfit] at hlp
    exact splitLongLoop_no_nl hL (splitNl p) [] (splitNl_no_nl) (Or.inl (by simp)) l hlp

/-! ### Generic lemmas about index-keyed `List.set` folds -/

theorem foldl_set_length {β : Type} (k : β → Nat) (v : β → Option OverlayLine) :
    ∀ (l : List β) (ov : List (Option OverlayLine)),
    (l.foldl (fun ov b => ov.set (k b) (v b)) ov).length = ov.length
  | [], _ => rfl
  | b :: l, ov => by
    rw [List.foldl_cons, foldl_set_length k v l]
    exact List.length_set ov (k b) (v b)

theorem foldl_set_cases {β : Type} (k : β → Nat) (v : β → Option OverlayLine) :
    ∀ (l : List β) (ov : List (Option OverlayLine)) (i : Nat),
    (l.foldl (fun ov b => ov.set (k b) (v b)) ov)[i]? = ov[i]? ∨
      ∃ b ∈ l, k b = i ∧
        (l.foldl (fun ov b => ov.set (k b) (v b)) ov)[i]? = some (v b)
  | [], _, _ => Or.inl rfl
  | b :: l, ov, i => by
    rw [List.foldl_cons]
    rcases foldl_set_cases k v l (ov.set (k b) (v b)) i with h1 | ⟨b', hb', hk, hv⟩
    · by_cases hkb : k b = i
      · by_cases hlt : i < ov.length
        · refine Or.inr ⟨b, List.mem_cons_self _ _, hkb, ?_⟩
          rw [h1, hkb]
          exact List.getElem?_set_self hlt
        · refine Or.inl ?_
          rw [h1, List.getElem?_set, if_pos hkb]
          rw [hkb]
          rw [if_neg hlt]
          symm
          exact List.getElem?_eq_none (by omega)
      · refine Or.inl ?_
        rw [h1, List.getElem?_set_ne hkb]
    · exact Or.inr ⟨b', List.mem_cons_of_mem _ hb', hk, hv⟩

theorem foldl_set_not_mem {β : Type} (k : β → Nat) (v : β → Option OverlayLine)
    (l : List β) (ov : List (Option OverlayLine)) (i : Nat)
    (h : ∀ b ∈ l, k b ≠ i) :
    (l.foldl (fun ov b => ov.set (k b) (v b)) ov)[i]? = ov[i]? := by
  rcases foldl_set_cases k v l ov i with h1 | ⟨b, hb, hk, _⟩
  · exact h1
  · exact absurd hk (h b hb)

theorem foldl_set_write {β : Type} (k : β → Nat) (v : β → Option OverlayLine) :
    ∀ (l : List β) (ov : List (Option OverlayLine)) (i : Nat),
    (∃ b ∈ l, k b = i) → i < ov.length →
    ∃ b ∈ l, k b = i ∧
      (l.foldl (fun ov b => ov.set (k b) (v b)) ov)[i]? = some (v b)
  | [], _, _, h, _ => by simp at h
  | b :: l, ov, i, h, hlt => by
    rw [List.foldl_cons]
    by_cases hrest : ∃ b' ∈ l, k b' = i
    · obtain ⟨b', hb', hk', hv'⟩ := foldl_set_write k v l (ov.set (k b) (v b)) i hrest
        (by rw [List.length_set]; exact hlt)
      exact ⟨b', List.mem_cons_of_mem _ hb', hk', hv'⟩
    · obtain ⟨b0, hb0, hk0⟩ := h
      have hb0h : b0 = b := by
        rcases List.mem_cons.mp hb0 with h1 | h1
        · exact h1
        · exact absurd ⟨b0, h1, hk0⟩ hrest
      subst hb0h
      refine ⟨b0, List.mem_cons_self _ _, hk0, ?_⟩
      have hnt : ∀ b' ∈ l, k b' ≠ i := fun b' hb' hk' => hrest ⟨b', hb', hk'⟩
      rw [foldl_set_not_mem k v l _ i hnt, ← hk0,
        List.getElem?_set_self (by rw [hk0]; exact hlt)]

theorem foldl_set_unique {β : Type} (k : β → Nat) (v : β → Option OverlayLine) :
    ∀ (l : List β) (ov : List (Option OverlayLine)) (i : Nat) (b0 : β),
    (l.map k).Nodup → b0 ∈ l → k b0 = i → i < ov.length →
    (l.foldl (fun ov b => ov.set (k b) (v b)) ov)[i]? = some (v b0)
  | [], _, _, _, _, hmem, _, _ => by simp at hmem
  | b :: l, ov, i, b0, hnd, hmem, hk0, hlt => by
    rw [List.foldl_cons]
    rw [List.map_cons] at hnd
    have hnc := List.nodup_cons.mp hnd
    have hnd' : (l.map k).Nodup := hnc.2
    rcases List.mem_cons.mp hmem with h1 | h1
    · subst h1
      have hnt : ∀ b' ∈ l, k b' ≠ i := by
        intro b' hb' hk'
        exact hnc.1 (by rw [hk0, ← hk']; exact List.mem_map_of_mem k hb')
      rw [foldl_set_not_mem k v l _ i hnt, ← hk0,
        List.getElem?_set_self (by rw [hk0]; exact hlt)]
    · exact foldl_set_unique k v l _ i b0 hnd' h1 hk0
        (by rw [List.length_set]; exact hlt)

/-! ### Enumeration, queue and chunking lemmas for the overlay pipeline -/

theorem withIdx_mem_dest {α : Type} : ∀ {l : List α} {k i : Nat} {a : α},
    (i, a) ∈ withIdx k l → k ≤ i ∧ l[i - k]? = some a := by
  intro l
  induction l with
  | nil => intro k i a h; simp [withIdx] at h
  | cons x xs ih =>
    intro k i a h
    rcases List.mem_cons.mp h with h1 | h1
    · have hik : i = k ∧ a = x := by
        have h2 := Prod.mk.injEq .. ▸ h1
        exact ⟨congrArg Prod.fst h1, congrArg Prod.snd h1⟩
      obtain ⟨hik, hax⟩ := hik
      subst hik
      subst hax
      simp
    · obtain ⟨h2, h3⟩ := ih h1
      refine ⟨by omega, ?_⟩
      have hd : i - k = (i - (k + 1)) + 1 := by omega
      rw [hd]
      simpa using h3

theorem withIdx_mem_intro {α : Type} : ∀ {l : List α} (k j : Nat) {a : α},
    l[j]? = some a → (k + j, a) ∈ withIdx k l := by
  intro l
  induction l with
  | nil => intro k j a h; simp at h
  | cons x xs ih =>
    intro k j a h
    cases j with
    | zero =>
      simp at h
      subst h
      exact List.mem_cons_self _ _
    | succ j =>
      simp only [List.getElem?_cons_succ] at h
      have := ih (k + 1) j h
      refine List.mem_cons_of_mem _ ?_
      have heq : k + 1 + j = k + (j + 1) := by omega
      rwa [heq] at this

theorem withIdx_fst_nodup {α : Type} : ∀ (l : List α) (k : Nat),
    ((withIdx k l).map Prod.fst).Nodup
  | [], _ => List.nodup_nil
  | x :: xs, k => by
    simp only [withIdx, List.map_cons]
    refine List.nodup_cons.mpr ⟨?_, withIdx_fst_nodup xs (k + 1)⟩
    intro hmem
    rcases List.mem_map.mp hmem with ⟨⟨i, a⟩, hia, hfst⟩
    have := (withIdx_mem_dest hia).1
    simp at hfst
    omega

theorem chunksOfF_flatten {α : Type} : ∀ (f k : Nat) (l : List α),
    l.length ≤ f → 1 ≤ k → (chunksOfF f k l).flatten = l
  | f, _, [], _, _ => by cases f <;> simp [chunksOfF]
  | 0, _, a :: l, hf, _ => by simp at hf
  | f + 1, k, a :: l, hf, hk => by
    simp only [chunksOfF, List.flatten_cons]
    have hf' : l.length + 1 ≤ f + 1 := by simpa using hf
    have hlen : ((a :: l).drop k).length ≤ f := by
      rw [List.length_drop]
      simp only [List.length_cons]
      omega
    rw [chunksOfF_flatten f k ((a :: l).drop k) hlen hk]
    exact List.take_append_drop k (a :: l)

theorem chunksOf_flatten {α : Type} (k : Nat) (l : List α) (hk : 1 ≤ k) :
    (chunksOf k l).flatten = l :=
  chunksOfF_flatten l.length k l (Nat.le_refl _) hk

theorem mem_of_mem_chunksOf {α : Type} {k : Nat} {l c : List α} {a : α}
    (hk : 1 ≤ k) (hc : c ∈ chunksOf k l) (ha : a ∈ c) : a ∈ l := by
  rw [← chunksOf_flatten k l hk]
  exact List.mem_flatten.mpr ⟨c, hc, ha⟩

/-! ### Facts about the translation queue `todoOf` -/

theorem todo_mem_dest {lines : List LyricsLine} {t : String} {i : Nat}
    (h : (t, i) ∈ todoOf lines) :
    ∃ l, lines[i]? = some l ∧ t = l.text ∧ pyStripS l.text ≠ "" := by
  unfold todoOf at h
  rcases List.mem_map.mp h with ⟨⟨j, l⟩, hmem, heq⟩
  have hf := List.mem_filter.mp hmem
  have hidx := withIdx_mem_dest hf.1
  have hj : j = i := congrArg Prod.snd heq
  have ht : l.text = t := congrArg Prod.fst heq
  subst hj
  refine ⟨l, by simpa using hidx.2, ht.symm, by simp at hf; exact hf.2⟩

theorem todo_mem_intro {lines : List LyricsLine} {l : LyricsLine} {i : Nat}
    (h : lines[i]? = some l) (hne : pyStripS l.text ≠ "") :
    (l.text, i) ∈ todoOf lines := by
  unfold todoOf
  refine List.mem_map.mpr ⟨(i, l), ?_, rfl⟩
  refine List.mem_filter.mpr ⟨?_, by simpa using hne⟩
  have := withIdx_mem_intro 0 i h
  simpa using this

theorem todo_keys_nodup (lines : List LyricsLine) :
    ((todoOf lines).map Prod.snd).Nodup := by
  unfold todoOf
  rw [List.map_map]
  have heq : (Prod.snd ∘ fun p : Nat × LyricsLine => (p.2.text, p.1))
      = Prod.fst := rfl
  rw [heq]
  refine List.Nodup.sublist ?_ (withIdx_fst_nodup lines 0)
  exact List.Sublist.map Prod.fst (List.filter_sublist _)

theorem chunk_sublist {α : Type} : ∀ {f k : Nat} {l c : List α},
    c ∈ chunksOfF f k l → ∃ pre post, pre ++ c ++ post = l := by
  intro f
  induction f with
  | zero =>
    intro k l c h
    cases l with
    | nil => simp [chunksOfF] at h
    | cons a l => simp [chunksOfF] at h
  | succ f ih =>
    intro k l c h
    cases l with
    | nil => simp [chunksOfF] at h
    | cons a l =>
      rcases List.mem_cons.mp h with h1 | h1
      · subst h1
        exact ⟨[], (a :: l).drop k, by rw [List.nil_append]; exact List.take_append_drop k (a :: l)⟩
      · obtain ⟨pre, post, hpp⟩ := ih h1
        refine ⟨(a :: l).take k ++ pre, post, ?_⟩
        rw [List.append_assoc] at hpp
        have hfin : (a :: l).take k ++ (pre ++ (c ++ post)) = a :: l := by
          rw [hpp]
          exact List.take_append_drop k (a :: l)
        calc (a :: l).take k ++ pre ++ c ++ post
            = (a :: l).take k ++ (pre ++ (c ++ post)) := by
              simp [List.append_assoc]
          _ = a :: l := hfin

theorem chunk_keys_nodup {lines : List LyricsLine} {c : List (String × Nat)}
    (hc : c ∈ chunksOf BATCH_SIZE (todoOf lines)) :
    (c.map Prod.snd).Nodup := by
  obtain ⟨pre, post, hpp⟩ := chunk_sublist hc
  have hnd := todo_keys_nodup lines
  refine List.Nodup.sublist ?_ hnd
  rw [← hpp]
  simp only [List.map_append]
  have s1 : (c.map Prod.snd).Sublist (c.map Prod.snd ++ post.map Prod.snd) :=
    List.sublist_append_left _ _
  have s2 : (c.map Prod.snd ++ post.map Prod.snd).Sublist
      (pre.map Prod.snd ++ (c.map Prod.snd ++ post.map Prod.snd)) :=
    List.sublist_append_right _ _
  have s3 := s1.trans s2
  rw [← List.append_assoc] at s3
  exact s3

/-! ### Per-chunk correctness of the overlay batch loop -/

/-- The entry stored at index `i` is a translation of line `i`: its original
text and timestamp come from `lines[i]`, only the translated text varies. -/
def GoodAt (lines : List LyricsLine) (i : Nat)
    (e : Option (Option OverlayLine)) : Prop :=
  ∃ tr, e = some (some (mkOv (lineAt lines i) tr))

theorem zip_snd_cover {α β : Type} : ∀ {l₁ : List α} {l₂ : List β} {j : β},
    l₁.length = l₂.length → j ∈ l₂ → ∃ p ∈ l₁.zip l₂, p.2 = j := by
  intro l₁
  induction l₁ with
  | nil =>
    intro l₂ j hlen hj
    cases l₂ with
    | nil => simp at hj
    | cons b l₂ => simp at hlen
  | cons a l₁ ih =>
    intro l₂ j hlen hj
    cases l₂ with
    | nil => simp at hj
    | cons b l₂ =>
      rcases List.mem_cons.mp hj with h1 | h1
      · exact ⟨(a, b), List.mem_cons_self _ _, h1.symm⟩
      · obtain ⟨p, hp, hpj⟩ := ih (by simpa using hlen) h1
        exact ⟨p, List.mem_cons_of_mem _ hp, hpj⟩

theorem applyBatchOk_as_fold (lines : List LyricsLine) (results : List TransResult)
    (idxs : List Nat) (ov : List (Option OverlayLine)) :
    applyBatchOk lines results idxs ov =
      (results.zip idxs).foldl
        (fun ov b => ov.set (Prod.snd b)
          ((fun p : TransResult × Nat =>
            some (mkOv (lineAt lines p.2) p.1.translated_text)) b)) ov := rfl

theorem applyFallback_as_fold (lines : List LyricsLine)
    (itemCall : Nat → String → Except PyError TransResult)
    (chunk : List (String × Nat)) (ov : List (Option OverlayLine)) :
    applyFallback lines itemCall chunk ov =
      chunk.foldl
        (fun ov b => ov.set (Prod.snd b)
          ((fun p : String × Nat =>
            match itemCall p.2 p.1 with
            | .ok r => some (mkOv (lineAt lines p.2) r.translated_text)
            | .error _ => some (mkOv (lineAt lines p.2) (lineAt lines p.2).text)) b)) ov := by
  unfold applyFallback
  congr 1
  funext ov b
  cases hcall : itemCall b.2 b.1 with
  | ok r => simp [hcall]
  | error e => simp [hcall]

theorem processChunk_length (lines : List LyricsLine)
    (itemCall : Nat → String → Except PyError TransResult)
    (chunk : List (String × Nat)) (res : Except PyError (List TransResult))
    (ov : List (Option OverlayLine)) :
    (processChunk lines itemCall chunk res ov).length = ov.length := by
  cases res with
  | ok results =>
    show (applyBatchOk lines results (chunk.map Prod.snd) ov).length = ov.length
    rw [applyBatchOk_as_fold]
    exact foldl_set_length _ _ _ _
  | error e =>
    show (applyFallback lines itemCall chunk ov).length = ov.length
    rw [applyFallback_as_fold]
    exact foldl_set_length _ _ _ _

theorem processChunk_not_mem (lines : List LyricsLine)
    (itemCall : Nat → String → Except PyError TransResult)
    (chunk : List (String × Nat)) (res : Except PyError (List TransResult))
    (ov : List (Option OverlayLine)) (i : Nat)
    (h : ∀ b ∈ chunk, b.2 ≠ i) :
    (processChunk lines itemCall chunk res ov)[i]? = ov[i]? := by
  cases res with
  | ok results =>
    show (applyBatchOk lines results (chunk.map Prod.snd) ov)[i]? = ov[i]?
    rw [applyBatchOk_as_fold]
    refine foldl_set_not_mem _ _ _ _ _ ?_
    intro b hb
    rcases List.mem_map.mp (List.of_mem_zip hb).2 with ⟨b', hb', hsnd⟩
    rw [← hsnd]
    exact h b' hb'
  | error e =>
    show (applyFallback lines itemCall chunk ov)[i]? = ov[i]?
    rw [applyFallback_as_fold]
    exact foldl_set_not_mem _ _ _ _ _ h

theorem processChunk_good (lines : List LyricsLine)
    (itemCall : Nat → String → Except PyError TransResult)
    (chunk : List (String × Nat)) (res : Except PyError (List TransResult))
    (ov : List (Option OverlayLine)) (i : Nat)
    (hmem : ∃ b ∈ chunk, b.2 = i) (hlt : i < ov.length)
    (hlen : ∀ results, res = .ok results → results.length = (chunk.map Prod.fst).length) :
    GoodAt lines i (processChunk lines itemCall chunk res ov)[i]? := by
  cases res with
  | ok results =>
    show GoodAt lines i (applyBatchOk lines results (chunk.map Prod.snd) ov)[i]?
    rw [applyBatchOk_as_fold]
    have hcov : ∃ p ∈ results.zip (chunk.map Prod.snd), p.2 = i := by
      refine zip_snd_cover (by rw [hlen results rfl]; simp) ?_
      obtain ⟨b, hb, hbi⟩ := hmem
      exact List.mem_map.mpr ⟨b, hb, hbi⟩
    obtain ⟨p, hp, hpk, hpv⟩ := foldl_set_write _ _ _ ov i hcov hlt
    refine ⟨p.1.translated_text, ?_⟩
    rw [hpv, hpk]
  | error e =>
    show GoodAt lines i (applyFallback lines itemCall chunk ov)[i]?
    rw [applyFallback_as_fold]
    obtain ⟨p, hp, hpk, hpv⟩ := foldl_set_write _ _ _ ov i hmem hlt
    rw [hpv]
    cases hcall : itemCall p.2 p.1 with
    | ok r =>
      refine ⟨r.translated_text, ?_⟩
      simp only [hcall, hpk]
    | error e2 =>
      refine ⟨(lineAt lines i).text, ?_⟩
      simp only [hcall, hpk]

theorem processChunk_preserve (lines : List LyricsLine)
    (itemCall : Nat → String → Except PyError TransResult)
    (chunk : List (String × Nat)) (res : Except PyError (List TransResult))
    (ov : List (Option OverlayLine)) (i : Nat)
    (h : GoodAt lines i ov[i]?) :
    GoodAt lines i (processChunk lines itemCall chunk res ov)[i]? := by
  cases res with
  | ok results =>
    show GoodAt lines i (applyBatchOk lines results (chunk.map Prod.snd) ov)[i]?
    rw [applyBatchOk_as_fold]
    rcases foldl_set_cases
        (fun b : TransResult × Nat => Prod.snd b)
        (fun p : TransResult × Nat =>
          some (mkOv (lineAt lines p.2) p.1.translated_text))
        (results.zip (chunk.map Prod.snd)) ov i with h1 | ⟨b, _, hk, hv⟩
    · rw [h1]; exact h
    · rw [hv]
      exact ⟨b.1.translated_text, by rw [hk]⟩
  | error e =>
    show GoodAt lines i (applyFallback lines itemCall chunk ov)[i]?
    rw [applyFallback_as_fold]
    rcases foldl_set_cases
        (fun b : String × Nat => Prod.snd b)
        (fun p : String × Nat =>
          match itemCall p.2 p.1 with
          | .ok r => some (mkOv (lineAt lines p.2) r.translated_text)
          | .error _ => some (mkOv (lineAt lines p.2) (lineAt lines p.2).text))
        chunk ov i with h1 | ⟨b, _, hk, hv⟩
    · rw [h1]; exact h
    · rw [hv]
      cases hcall : itemCall b.2 b.1 with
      | ok r => exact ⟨r.translated_text, by simp only [hcall, hk]⟩
      | error e2 => exact ⟨(lineAt lines i).text, by simp only [hcall, hk]⟩

/-! ### The outer batch loop -/

theorem outer_length (lines : List LyricsLine)
    (batchCall : Nat → List String → Except PyError (List TransResult))
    (itemCall : Nat → String → Except PyError TransResult) :
    ∀ (cl : List (Nat × List (String × Nat))) (ov : List (Option OverlayLine)),
    (cl.foldl (fun ov p =>
      processChunk lines itemCall p.2 (batchCall p.1 (p.2.map Prod.fst)) ov) ov).length
      = ov.length
  | [], _ => rfl
  | q :: cl, ov => by
    rw [List.foldl_cons, outer_length lines batchCall itemCall cl]
    exact processChunk_length ..

theorem outer_not_mem (lines : List LyricsLine)
    (batchCall : Nat → List String → Except PyError (List TransResult))
    (itemCall : Nat → String → Except PyError TransResult) :
    ∀ (cl : List (Nat × List (String × Nat))) (ov : List (Option OverlayLine))
    (i : Nat), (∀ q ∈ cl, ∀ b ∈ q.2, b.2 ≠ i) →
    (cl.foldl (fun ov p =>
      processChunk lines itemCall p.2 (batchCall p.1 (p.2.map Prod.fst)) ov) ov)[i]?
      = ov[i]?
  | [], _, _, _ => rfl
  | q :: cl, ov, i, h => by
    rw [List.foldl_cons,
      outer_not_mem lines batchCall itemCall cl _ i
        (fun q' hq' => h q' (List.mem_cons_of_mem _ hq'))]
    exact processChunk_not_mem lines itemCall q.2 _ ov i
      (h q (List.mem_cons_self _ _))

theorem outer_preserve (lines : List LyricsLine)
    (batchCall : Nat → List String → Except PyError (List TransResult))
    (itemCall : Nat → String → Except PyError TransResult) :
    ∀ (cl : List (Nat × List (String × Nat))) (ov : List (Option OverlayLine))
    (i : Nat), GoodAt lines i ov[i]? →
    GoodAt lines i (cl.foldl (fun ov p =>
      processChunk lines itemCall p.2 (batchCall p.1 (p.2.map Prod.fst)) ov) ov)[i]?
  | [], _, _, h => h
  | q :: cl, ov, i, h => by
    rw [List.foldl_cons]
    exact outer_preserve lines batchCall itemCall cl _ i
      (processChunk_preserve lines itemCall q.2 _ ov i h)

theorem outer_write (lines : List LyricsLine)
    (batchCall : Nat → List String → Except PyError (List TransResult))
    (itemCall : Nat → String → Except PyError TransResult)
    (hlen : ∀ k ts r, batchCall k ts = .ok r → r.length = ts.length) :
    ∀ (cl : List (Nat × List (String × Nat))) (ov : List (Option OverlayLine))
    (i : Nat), (∃ q ∈ cl, ∃ b ∈ q.2, b.2 = i) → i < ov.length →
    GoodAt lines i (cl.foldl (fun ov p =>
      processChunk lines itemCall p.2 (batchCall p.1 (p.2.map Prod.fst)) ov) ov)[i]?
  | [], _, _, h, _ => by simp at h
  | q :: cl, ov, i, h, hlt => by
    rw [List.foldl_cons]
    by_cases hq : ∃ b ∈ q.2, b.2 = i
    · refine outer_preserve lines batchCall itemCall cl _ i ?_
      refine processChunk_good lines itemCall q.2 _ ov i hq hlt ?_
      intro results hres
      rw [hlen q.1 (q.2.map Prod.fst) results hres]
    · obtain ⟨q', hq', hb⟩ := h
      have hq'cl : q' ∈ cl := by
        rcases List.mem_cons.mp hq' with h1 | h1
        · subst h1
          exact absurd hb hq
        · exact h1
      refine outer_write lines batchCall itemCall hlen cl _ i ⟨q', hq'cl, hb⟩ ?_
      rw [processChunk_length]
      exact hlt

theorem initOverlay_get (lines : List LyricsLine) (i : Nat) {l : LyricsLine}
    (h : lines[i]? = some l) :
    (initOverlay lines)[i]? = some
      (if pyStripS l.text = "" then some ⟨"", "", some l.timestamp_ms⟩ else none) := by
  unfold initOverlay
  rw [List.getElem?_map, h]
  rfl

theorem lineAt_of_getElem? {lines : List LyricsLine} {i : Nat} {l : LyricsLine}
    (h : lines[i]? = some l) : lineAt lines i = l := by
  unfold lineAt
  rw [List.getD_eq_getElem?_getD, h]
  rfl

theorem mem_withIdx_of_mem {α : Type} : ∀ {l : List α} {a : α} (k : Nat),
    a ∈ l → ∃ j, (j, a) ∈ withIdx k l := by
  intro l
  induction l with
  | nil => intro a k h; simp at h
  | cons x xs ih =>
    intro a k h
    rcases List.mem_cons.mp h with h1 | h1
    · subst h1
      exact ⟨k, List.mem_cons_self _ _⟩
    · obtain ⟨j, hj⟩ := ih (k + 1) h1
      exact ⟨j, List.mem_cons_of_mem _ hj⟩

theorem getElem?_lt {α : Type} {l : List α} {i : Nat} {a : α}
    (h : l[i]? = some a) : i < l.length := by
  rcases List.getElem?_eq_some_iff.mp h with ⟨hlt, _⟩
  exact hlt

theorem translateLinesSynced_eq (lines : List LyricsLine)
    (batchCall : Nat → List String → Except PyError (List TransResult))
    (itemCall : Nat → String → Except PyError TransResult) :
    translateLinesSynced lines batchCall itemCall =
      (withIdx 0 (chunksOf BATCH_SIZE (todoOf lines))).foldl
        (fun ov p =>
          processChunk lines itemCall p.2 (batchCall p.1 (p.2.map Prod.fst)) ov)
        (initOverlay lines) := rfl

/-- C1 (amended).  For every run of the synced-lines pipeline — any line list,
any batch outcomes (successful batches returning one result per request text,
as the external API contract guarantees), any per-item fallback outcomes — the
output has exactly the length of the input, and the entry at every index `i`
is built from input line `i`: lines with non-whitespace content keep their
original text and timestamp (with some translated text), while whitespace-only
lines are emitted as empty entries (empty original and translated text) with
the timestamp preserved. -/
theorem overlay_order_preserved (lines : List LyricsLine)
    (batchCall : Nat → List String → Except PyError (List TransResult))
    (itemCall : Nat → String → Except PyError TransResult)
    (hlen : ∀ k ts r, batchCall k ts = .ok r → r.length = ts.length) :
    (translateLinesSynced lines batchCall itemCall).length = lines.length ∧
    ∀ (i : Nat) (l : LyricsLine), lines[i]? = some l →
      (pyStripS l.text = "" →
        (translateLinesSynced lines batchCall itemCall)[i]? =
          some (some ⟨"", "", some l.timestamp_ms⟩)) ∧
      (pyStripS l.text ≠ "" →
        ∃ tr, (translateLinesSynced lines batchCall itemCall)[i]? =
          some (some ⟨l.text, tr, some l.timestamp_ms⟩)) := by
  rw [translateLinesSynced_eq]
  constructor
  · rw [outer_length lines batchCall itemCall]
    unfold initOverlay
    exact List.length_map _ _
  · intro i l hl
    constructor
    · intro hws
      rw [outer_not_mem lines batchCall itemCall _ _ i ?notmem]
      case notmem =>
        intro q hq b hb hbi
        subst hbi
        rcases withIdx_mem_dest hq with ⟨-, hq2⟩
        have hqc : q.2 ∈ chunksOf BATCH_SIZE (todoOf lines) := by
          simp only [Nat.sub_zero] at hq2
          exact List.getElem?_mem hq2
        have hbtodo : b ∈ todoOf lines :=
          mem_of_mem_chunksOf (by decide) hqc hb
        obtain ⟨l', hl', -, hne'⟩ := todo_mem_dest (t := b.1) (i := b.2)
          (by rwa [show (b.1, b.2) = b from rfl])
        rw [hl] at hl'
        injection hl' with hl'
        rw [← hl'] at hne'
        exact hne' hws
      rw [initOverlay_get lines i hl, if_pos hws]
    · intro hne
      have hb0 : (l.text, i) ∈ todoOf lines := todo_mem_intro hl hne
      have hflat : (l.text, i) ∈ (chunksOf BATCH_SIZE (todoOf lines)).flatten := by
        rw [chunksOf_flatten BATCH_SIZE (todoOf lines) (by decide)]
        exact hb0
      rcases List.mem_flatten.mp hflat with ⟨c, hc, hbc⟩
      obtain ⟨j, hj⟩ := mem_withIdx_of_mem 0 hc
      have hgood : GoodAt lines i
          ((withIdx 0 (chunksOf BATCH_SIZE (todoOf lines))).foldl
            (fun ov p =>
              processChunk lines itemCall p.2 (batchCall p.1 (p.2.map Prod.fst)) ov)
            (initOverlay lines))[i]? := by
        refine outer_write lines batchCall itemCall hlen _ _ i
          ⟨(j, c), hj, (l.text, i), hbc, rfl⟩ ?_
        have : i < lines.length := getElem?_lt hl
        unfold initOverlay
        rw [List.length_map]
        exact this
      obtain ⟨tr, htr⟩ := hgood
      refine ⟨tr, ?_⟩
      rw [htr, lineAt_of_getElem? hl]
      rfl

/-! ### Exact per-item semantics of the fallback path (for C6) -/

/-- The overlay entry produced by the fallback path for queue item `b`. -/
def fbVal (lines : List LyricsLine)
    (itemCall : Nat → String → Except PyError TransResult)
    (b : String × Nat) : Option OverlayLine :=
  match itemCall b.2 b.1 with
  | .ok r => some (mkOv (lineAt lines b.2) r.translated_text)
  | .error _ => some (mkOv (lineAt lines b.2) (lineAt lines b.2).text)

theorem applyFallback_as_fold2 (lines : List LyricsLine)
    (itemCall : Nat → String → Except PyError TransResult)
    (chunk : List (String × Nat)) (ov : List (Option OverlayLine)) :
    applyFallback lines itemCall chunk ov =
      chunk.foldl (fun ov b => ov.set (Prod.snd b) (fbVal lines itemCall b)) ov := by
  rw [applyFallback_as_fold]
  rfl

/-- All line indices mentioned by an enumerated chunk list. -/
def flatKeys (cl : List (Nat × List (String × Nat))) : List Nat :=
  (cl.map fun q => q.2.map Prod.snd).flatten

theorem outer_fallback_exact (lines : List LyricsLine) (e0 : PyError)
    (itemCall : Nat → String → Except PyError TransResult) :
    ∀ (cl : List (Nat × List (String × Nat))) (ov : List (Option OverlayLine))
    (i : Nat) (b0 : String × Nat),
    (flatKeys cl).Nodup → (∃ q ∈ cl, b0 ∈ q.2) → b0.2 = i → i < ov.length →
    (cl.foldl (fun ov p =>
      processChunk lines itemCall p.2
        ((fun _ _ => (.error e0 : Except PyError (List TransResult))) p.1
          (p.2.map Prod.fst)) ov) ov)[i]?
      = some (fbVal lines itemCall b0)
  | [], _, _, _, _, hmem, _, _ => by simp at hmem
  | q :: cl, ov, i, b0, hnd, hmem, hk0, hlt => by
    have hsplit : (q.2.map Prod.snd).Nodup ∧ (flatKeys cl).Nodup ∧
        (q.2.map Prod.snd).Disjoint (flatKeys cl) := by
      unfold flatKeys at hnd
      rw [List.map_cons, List.flatten_cons, List.nodup_append] at hnd
      exact ⟨hnd.1, hnd.2.1, hnd.2.2⟩
    rw [List.foldl_cons]
    obtain ⟨q', hq', hbq'⟩ := hmem
    rcases List.mem_cons.mp hq' with h1 | h1
    · subst h1
      have hstep : (processChunk lines itemCall q'.2 (.error e0) ov)[i]?
          = some (fbVal lines itemCall b0) := by
        show (applyFallback lines itemCall q'.2 ov)[i]? = _
        rw [applyFallback_as_fold2]
        exact foldl_set_unique _ _ q'.2 ov i b0 hsplit.1 hbq' hk0 hlt
      rw [outer_not_mem lines (fun _ _ => .error e0) itemCall cl _ i ?rest]
      case rest =>
        intro q2 hq2 b hb hbi
        have hkey : b.2 ∈ flatKeys cl := by
          unfold flatKeys
          exact List.mem_flatten.mpr ⟨q2.2.map Prod.snd,
            List.mem_map_of_mem _ hq2, List.mem_map_of_mem _ hb⟩
        have hkeyq : i ∈ q'.2.map Prod.snd := by
          rw [← hk0]
          exact List.mem_map_of_mem _ hbq'
        rw [hbi] at hkey
        exact hsplit.2.2 hkeyq hkey
      exact hstep
    · refine outer_fallback_exact lines e0 itemCall cl _ i b0 hsplit.2.1
        ⟨q', h1, hbq'⟩ hk0 ?_
      rw [processChunk_length]
      exact hlt

theorem withIdx_map_snd {α : Type} : ∀ (l : List α) (k : Nat),
    (withIdx k l).map Prod.snd = l
  | [], _ => rfl
  | x :: xs, k => by
    simp only [withIdx, List.map_cons]
    rw [withIdx_map_snd xs (k + 1)]

theorem flatKeys_withIdx_nodup (lines : List LyricsLine) :
    (flatKeys (withIdx 0 (chunksOf BATCH_SIZE (todoOf lines)))).Nodup := by
  unfold flatKeys
  have h1 : (withIdx 0 (chunksOf BATCH_SIZE (todoOf lines))).map
      (fun q => q.2.map Prod.snd)
      = (chunksOf BATCH_SIZE (todoOf lines)).map (fun c => c.map Prod.snd) := by
    have h2 := withIdx_map_snd (chunksOf BATCH_SIZE (todoOf lines)) 0
    have h3 : (withIdx 0 (chunksOf BATCH_SIZE (todoOf lines))).map
        (fun q => q.2.map Prod.snd)
        = ((withIdx 0 (chunksOf BATCH_SIZE (todoOf lines))).map Prod.snd).map
            (fun c => c.map Prod.snd) := by
      rw [List.map_map]
      rfl
    rw [h3, h2]
  rw [h1, ← List.map_flatten, chunksOf_flatten BATCH_SIZE (todoOf lines) (by decide)]
  exact todo_keys_nodup lines

/-- C6.  When every batch call fails (constant batch error `e0`), every
non-whitespace line receives exactly the result of its own fallback call: a
successful per-item call stores its translation, a failed one stores the
original text as the translated value, each at the line's own index —
independent failures never abort the other items. -/
theorem fallback_isolation (lines : List LyricsLine) (e0 : PyError)
    (itemCall : Nat → String → Except PyError TransResult)
    (i : Nat) (l : LyricsLine) (hl : lines[i]? = some l)
    (hne : pyStripS l.text ≠ "") :
    (translateLinesSynced lines (fun _ _ => .error e0) itemCall)[i]? =
      some (match itemCall i l.text with
        | .ok r => some (OverlayLine.mk l.text r.translated_text (some l.timestamp_ms))
        | .error _ => some (OverlayLine.mk l.text l.text (some l.timestamp_ms))) := by
  rw [translateLinesSynced_eq]
  have hb0 : (l.text, i) ∈ todoOf lines := todo_mem_intro hl hne
  have hflat : (l.text, i) ∈ (chunksOf BATCH_SIZE (todoOf lines)).flatten := by
    rw [chunksOf_flatten BATCH_SIZE (todoOf lines) (by decide)]
    exact hb0
  rcases List.mem_flatten.mp hflat with ⟨c, hc, hbc⟩
  obtain ⟨j, hj⟩ := mem_withIdx_of_mem 0 hc
  have hexact := outer_fallback_exact lines e0 itemCall
    (withIdx 0 (chunksOf BATCH_SIZE (todoOf lines))) (initOverlay lines) i
    (l.text, i) (flatKeys_withIdx_nodup lines) ⟨(j, c), hj, hbc⟩ rfl
    (by unfold initOverlay; rw [List.length_map]; exact getElem?_lt hl)
  rw [hexact]
  unfold fbVal
  rw [lineAt_of_getElem? hl]
  cases itemCall i l.text with
  | ok r => rfl
  | error e => rfl

/-! ### Claim-level counterexamples and remaining theorems -/

/-- C1 counterexample.  On the single whitespace-only input line `" "`, the
pipeline emits the entry with empty original text, so the output's original
text at index 0 does not match the input line text: the per-index
correspondence fails as literally stated. -/
theorem overlay_ws_line_cex :
    translateLinesSynced [⟨" ", 7⟩] (fun _ _ => .error (.translationFailed "err"))
        (fun _ _ => .error (.translationFailed "err"))
      = [some ⟨"", "", some 7⟩] ∧ ("" : String) ≠ " " := by
  exact ⟨by decide, by decide⟩

/-- C1 witness: the amended theorem applied to a two-line input (one real
line, one whitespace-only line) with succeeding batch calls. -/
theorem overlay_order_preserved_w :
    (translateLinesSynced [⟨"Hi", 3⟩, ⟨" ", 5⟩]
        (fun _ ts => .ok (ts.map fun t => ⟨t, "X", none, "ES"⟩))
        (fun _ _ => .error (.other "boom"))).length = 2 ∧
    (∃ tr, (translateLinesSynced [⟨"Hi", 3⟩, ⟨" ", 5⟩]
        (fun _ ts => .ok (ts.map fun t => ⟨t, "X", none, "ES"⟩))
        (fun _ _ => .error (.other "boom")))[0]? = some (some ⟨"Hi", tr, some 3⟩)) ∧
    (translateLinesSynced [⟨"Hi", 3⟩, ⟨" ", 5⟩]
        (fun _ ts => .ok (ts.map fun t => ⟨t, "X", none, "ES"⟩))
        (fun _ _ => .error (.other "boom")))[1]? = some (some ⟨"", "", some 5⟩) := by
  have h := overlay_order_preserved [⟨"Hi", 3⟩, ⟨" ", 5⟩]
      (fun _ ts => .ok (ts.map fun t => ⟨t, "X", none, "ES"⟩))
      (fun _ _ => .error (.other "boom"))
      (by
        intro k ts r hr
        injection hr with hr
        rw [← hr, List.length_map])
  refine ⟨by simpa using h.1, ?_, ?_⟩
  · exact (h.2 0 ⟨"Hi", 3⟩ (by decide)).2 (by decide)
  · exact (h.2 1 ⟨" ", 5⟩ (by decide)).1 (by decide)

/-- C6 witness: the exact fallback semantics applied to one line whose
per-item call fails, yielding the original text as the translated value. -/
theorem fallback_isolation_w :
    pyStripS "Hi" ≠ "" ∧
    (translateLinesSynced [⟨"Hi", 3⟩] (fun _ _ => .error (.translationFailed "err"))
        (fun _ _ => .error (.translationFailed "err")))[0]? =
      some (some ⟨"Hi", "Hi", some 3⟩) := by
  refine ⟨by decide, ?_⟩
  have h := fallback_isolation [⟨"Hi", 3⟩] (.translationFailed "err")
      (fun _ _ => .error (.translationFailed "err")) 0 ⟨"Hi", 3⟩ (by decide) (by decide)
  simpa using h

theorem outer_error_payload_irrelevant (lines : List LyricsLine)
    (itemCall : Nat → String → Except PyError TransResult) (e1 e2 : PyError) :
    ∀ (cl : List (Nat × List (String × Nat))) (ov : List (Option OverlayLine)),
    cl.foldl (fun ov p =>
        processChunk lines itemCall p.2
          ((fun _ _ => (.error e1 : Except PyError (List TransResult))) p.1
            (p.2.map Prod.fst)) ov) ov
      = cl.foldl (fun ov p =>
        processChunk lines itemCall p.2
          ((fun _ _ => (.error e2 : Except PyError (List TransResult))) p.1
            (p.2.map Prod.fst)) ov) ov
  | [], _ => rfl
  | q :: cl, ov => by
    rw [List.foldl_cons, List.foldl_cons]
    exact outer_error_payload_irrelevant lines itemCall e1 e2 cl _

/-- C3 (amended).  A 429 response is signalled by `translate_batch_sync` as
the distinct `RateLimitError`; but the overlay pipeline's `except Exception`
handler treats it exactly like any other batch failure, triggering the
per-item fallback — a rate-limited batch behaves identically to a batch that
failed with a generic `TranslationError`, and is not propagated to the
route's `RateLimitError` handler. -/
theorem rate_limit_handling_amended :
    (∀ (apiKey : String) (texts : List String) (target : String)
        (source : Option String) (tr : List (String × Option String)),
      apiKey ≠ "" →
      translate_batch_sync apiKey texts target source (.ok ⟨429, tr⟩)
        = .error (.rateLimit "DeepL API rate limit exceeded")) ∧
    (∀ (lines : List LyricsLine)
        (itemCall : Nat → String → Except PyError TransResult) (m m' : String),
      translateLinesSynced lines (fun _ _ => .error (.rateLimit m)) itemCall
        = translateLinesSynced lines (fun _ _ => .error (.translationFailed m')) itemCall) := by
  constructor
  · intro apiKey texts target source tr hk
    unfold translate_batch_sync
    rw [if_neg hk]
    rfl
  · intro lines itemCall m m'
    rw [translateLinesSynced_eq, translateLinesSynced_eq]
    exact outer_error_payload_irrelevant lines itemCall (.rateLimit m)
      (.translationFailed m') _ _

/-- C3 witness: the amendment applied to a non-empty key and a concrete line
list. -/
theorem rate_limit_handling_w :
    translate_batch_sync "key" ["Hello"] "ES" none (.ok ⟨429, []⟩)
      = .error (.rateLimit "DeepL API rate limit exceeded") ∧
    translateLinesSynced [⟨"Hello", 0⟩]
        (fun _ _ => .error (.rateLimit "m")) (fun _ _ => .error (.other "x"))
      = translateLinesSynced [⟨"Hello", 0⟩]
        (fun _ _ => .error (.translationFailed "n")) (fun _ _ => .error (.other "x")) := by
  exact ⟨rate_limit_handling_amended.1 "key" ["Hello"] "ES" none [] (by decide),
    rate_limit_handling_amended.2 [⟨"Hello", 0⟩] (fun _ _ => .error (.other "x")) "m" "n"⟩

/-- C3 counterexample.  A rate-limited batch call does trigger the per-item
fallback: under a `RateLimitError` batch outcome the pipeline's result depends
on the per-item calls (first run: the item call succeeds and its translation
is used; second run: the item call fails and the original text is echoed), and
in both runs a normal response is produced — the `RateLimitError` is not
propagated. -/
theorem rate_limit_fallback_cex :
    translateLinesSynced [⟨"Hello", 0⟩]
        (fun _ _ => .error (.rateLimit "DeepL API rate limit exceeded"))
        (fun _ _ => .ok ⟨"Hello", "Hola", some "EN", "ES"⟩)
      = [some ⟨"Hello", "Hola", some 0⟩] ∧
    translateLinesSynced [⟨"Hello", 0⟩]
        (fun _ _ => .error (.rateLimit "DeepL API rate limit exceeded"))
        (fun _ _ => .error (.rateLimit "DeepL API rate limit exceeded"))
      = [some ⟨"Hello", "Hello", some 0⟩] := by
  exact ⟨by decide, by decide⟩

/-- C4 (amended).  Single-text translation validates any non-empty target
code — and any truthy (non-empty) source code, once the target check passes —
locally against the static table and raises `InvalidLanguageError` before,
and independently of, any network interaction (the result is the same for
every network oracle); batch translation performs no language validation at
all and can never raise `InvalidLanguageError`. -/
theorem language_validation_amended :
    (∀ (apiKey text target : String) (source : Option String) (useCache : Bool)
        (st : RedisState) (resp : Except Unit DeepLResp),
      apiKey ≠ "" → target ≠ "" → supportedLang target = false →
      translate_lyrics apiKey text target source useCache st resp
        = (.error (.invalidLanguage ("Unsupported target language: " ++ target)), st)) ∧
    (∀ (apiKey text target : String) (source : Option String) (useCache : Bool)
        (st : RedisState) (resp : Except Unit DeepLResp),
      apiKey ≠ "" → (target = "" ∨ supportedLang target = true) →
      pyTruthyOpt source = true → supportedLang (source.getD "") = false →
      translate_lyrics apiKey text target source useCache st resp
        = (.error (.invalidLanguage
            ("Unsupported source language: " ++ source.getD "")), st)) ∧
    (∀ (apiKey : String) (texts : List String) (target : String)
        (source : Option String) (resp : Except Unit DeepLResp) (m : String),
      translate_batch_sync apiKey texts target source resp
        ≠ .error (.invalidLanguage m)) := by
  refine ⟨?_, ?_, ?_⟩
  · intro apiKey text target source useCache st resp hk ht hs
    unfold translate_lyrics
    rw [if_neg hk, if_pos (by simp [ht, hs])]
  · intro apiKey text target source useCache st resp hk ht hsrc hsup
    unfold translate_lyrics
    rw [if_neg hk, if_neg ?tcond, if_pos (by simp [hsrc, hsup])]
    case tcond =>
      rcases ht with h1 | h1
      · subst h1
        simp
      · simp [h1]
  · intro apiKey texts target source resp m h
    unfold translate_batch_sync at h
    by_cases hk : apiKey = ""
    · rw [if_pos hk] at h
      simp at h
    · rw [if_neg hk] at h
      cases resp with
      | error u => simp at h
      | ok r =>
        by_cases h429 : r.status = 429
        · simp only [h429] at h
          simp at h
        · simp only [if_neg h429] at h
          by_cases h200 : r.status ≠ 200
          · rw [if_pos h200] at h
            simp at h
          · rw [if_neg h200] at h
            by_cases hlt : texts.length < r.translations.length
            · rw [if_pos hlt] at h
              simp at h
            · rw [if_neg hlt] at h
              simp at h

/-- C4 witness: the single-text validator applied to the unsupported target
code `"XX"` with two different network oracles (same local error, no call
made), to the unsupported source code `"XX"` under the supported target
`"EN"` with two different network oracles, and the batch non-validation
clause at a concrete request. -/
theorem language_validation_w :
    ("key" : String) ≠ "" ∧ ("XX" : String) ≠ "" ∧ supportedLang "XX" = false ∧
    supportedLang "EN" = true ∧ pyTruthyOpt (some "XX") = true ∧
    translate_lyrics "key" "Hello" "XX" none false ⟨true, []⟩ (.error ())
      = (.error (.invalidLanguage "Unsupported target language: XX"), ⟨true, []⟩) ∧
    translate_lyrics "key" "Hello" "XX" none false ⟨true, []⟩
        (.ok ⟨200, [("Hola", some "EN")]⟩)
      = (.error (.invalidLanguage "Unsupported target language: XX"), ⟨true, []⟩) ∧
    translate_lyrics "key" "Hello" "EN" (some "XX") false ⟨true, []⟩ (.error ())
      = (.error (.invalidLanguage "Unsupported source language: XX"), ⟨true, []⟩) ∧
    translate_lyrics "key" "Hello" "EN" (some "XX") false ⟨true, []⟩
        (.ok ⟨200, [("Hola", some "EN")]⟩)
      = (.error (.invalidLanguage "Unsupported source language: XX"), ⟨true, []⟩) ∧
    translate_batch_sync "key" ["Hello"] "XX" none (.ok ⟨429, []⟩)
      ≠ .error (.invalidLanguage "Unsupported target language: XX") := by
  refine ⟨by decide, by decide, by decide, by decide, by decide, ?_, ?_, ?_, ?_, ?_⟩
  · exact language_validation_amended.1 "key" "Hello" "XX" none false ⟨true, []⟩
      (.error ()) (by decide) (by decide) (by decide)
  · exact language_validation_amended.1 "key" "Hello" "XX" none false ⟨true, []⟩
      (.ok ⟨200, [("Hola", some "EN")]⟩) (by decide) (by decide) (by decide)
  · exact language_validation_amended.2.1 "key" "Hello" "EN" (some "XX") false
      ⟨true, []⟩ (.error ()) (by decide) (Or.inr (by decide)) (by decide) (by decide)
  · exact language_validation_amended.2.1 "key" "Hello" "EN" (some "XX") false
      ⟨true, []⟩ (.ok ⟨200, [("Hola", some "EN")]⟩) (by decide) (Or.inr (by decide))
      (by decide) (by decide)
  · exact language_validation_amended.2.2 "key" ["Hello"] "XX" none (.ok ⟨429, []⟩)
      "Unsupported target language: XX"

/-- C4 counterexample.  Batch translation with the unsupported target `"XX"`
raises no `InvalidLanguageError` and does reach the network: its outcome is
determined by the network response (success for a 200, `RateLimitError` for a
429), so a network call is made. -/
theorem batch_no_validation_cex :
    supportedLang "XX" = false ∧
    translate_batch_sync "key" ["Hello"] "XX" none (.ok ⟨200, [("Hola", some "EN")]⟩)
      = .ok [⟨"Hello", "Hola", some "EN", "XX"⟩] ∧
    translate_batch_sync "key" ["Hello"] "XX" none (.ok ⟨429, []⟩)
      = .error (.rateLimit "DeepL API rate limit exceeded") := by
  exact ⟨by decide, by decide, by decide⟩

/-- C9 (amended).  `TranslationCache.get` and `.set` are best-effort — when
the redis backend is unreachable, `get` degrades to a miss and `set` to a
no-op, never raising — but enabling the cache is not failure-free: when the
`redis` module is not importable, constructing a translator with
`use_cache=True` raises `ImportError` (while the same construction with the
cache disabled succeeds), so a translation request that enables the cache can
fail for cache reasons alone. -/
theorem cache_best_effort_amended :
    (∀ (st : RedisState) (k : String), st.reachable = false →
      cache_get st k = none) ∧
    (∀ (st : RedisState) (k : String) (v : TransResult), st.reachable = false →
      cache_set st k v = st) ∧
    deepLTranslatorInit "key" "" true false ⟨true, []⟩
      = .error (.importError "Redis is not installed. Install it with: pip install redis") ∧
    deepLTranslatorInit "key" "" false false ⟨true, []⟩ = .ok ⟨"key", none⟩ := by
  refine ⟨?_, ?_, by decide, by decide⟩
  · intro st k h
    unfold cache_get redis_get
    rw [h]
    rfl
  · intro st k v h
    unfold cache_set redis_setex
    rw [h]
    rfl

/-- C9 witness: the degradation clauses applied to a concrete unreachable
store, together with the `ImportError` construction facts. -/
theorem cache_best_effort_w :
    cache_get ⟨false, [("k", ⟨"a", "b", none, "ES"⟩)]⟩ "k" = none ∧
    cache_set ⟨false, []⟩ "k" ⟨"a", "b", none, "ES"⟩ = ⟨false, []⟩ := by
  exact ⟨cache_best_effort_amended.1 ⟨false, [("k", ⟨"a", "b", none, "ES"⟩)]⟩ "k" rfl,
    cache_best_effort_amended.2.1 ⟨false, []⟩ "k" ⟨"a", "b", none, "ES"⟩ rfl⟩

/-- C9 counterexample.  With the cache enabled and the redis module missing,
translator construction raises `ImportError`; with the cache disabled the same
construction succeeds — so enabling the cache alone makes the translation
request fail, contradicting "never causes a translation request to fail". -/
theorem cache_import_error_cex :
    deepLTranslatorInit "key" "" true false ⟨true, []⟩
      = .error (.importError "Redis is not installed. Install it with: pip install redis") ∧
    deepLTranslatorInit "key" "" false false ⟨true, []⟩ = .ok ⟨"key", none⟩ := by
  exact ⟨by decide, by decide⟩

/-- C10.  When stripping punctuation and whitespace from the requested word
leaves nothing, `/translate-word` answers immediately with the word echoed
back as both original and translated, no detected language — and the result
is the same for every translation oracle, i.e. no translation call is made. -/
theorem word_punct_passthrough (word target : String)
    (call : String → Except PyError TransResult) (h : cleanWord word = "") :
    translate_word word target call = .ok ⟨word, word, target, none⟩ := by
  unfold translate_word
  simp [h]

/-- C10 witness: a pure-punctuation word with a failing oracle. -/
theorem word_punct_passthrough_w :
    cleanWord "?!" = "" ∧
    translate_word "?!" "ES" (fun _ => .error (.rateLimit "r"))
      = .ok ⟨"?!", "?!", "ES", none⟩ := by
  exact ⟨by decide,
    word_punct_passthrough "?!" "ES" (fun _ => .error (.rateLimit "r")) (by decide)⟩

/-- C7 counterexample.  The segmenter on empty input returns `[""]` — one
(empty) segment, not the empty list the claim states. -/
theorem segment_empty_cex :
    split_into_segments "" 1000 = [""] ∧ ([""] : List String) ≠ [] := by
  exact ⟨by decide, by decide⟩

/-- C8 counterexample.  `split_into_segments` performs no validation of
`max_segment_length`: called with the non-positive bound 0 it raises nothing
and returns a normal result (the embedding is total because the Python
function has no error path at all). -/
theorem segment_no_failfast_cex : split_into_segments "ab" 0 = ["ab"] := by
  decide

/-- C8 witness: the amended no-newline property applied to `"a\nb"` with
`maxLen = 0`, whose segment `"a"` indeed contains no newline. -/
theorem segment_nonpositive_maxlen_w :
    ((0 : Int) ≤ 0) ∧ "a" ∈ split_into_segments "a\nb" 0 ∧
      '\n' ∉ ("a" : String).data := by
  refine ⟨by decide, by decide, ?_⟩
  exact segment_nonpositive_maxlen "a\nb" 0 (by decide) "a" (by decide)


/-- A whitespace-only string (the material that per-segment trimming may
remove). -/
def wsOnlyStr (s : String) : Prop := ∀ c ∈ s.data, isWS c = true

/-- The tolerance of claim C2, formalised: the segments reproduce `y` "up to
trimming of leading/trailing whitespace per segment" when some whitespace
padding can be restored around each segment so that joining the padded
segments with the paragraph separator yields `y` exactly. -/
def eqUpToSegTrim (segs : List String) (y : String) : Prop :=
  ∃ pads : List (String × String), pads.length = segs.length ∧
    (∀ p ∈ pads, wsOnlyStr p.1 ∧ wsOnlyStr p.2) ∧
    pyJoinS "\n\n" (List.zipWith (fun s p => p.1 ++ s ++ p.2) segs pads) = y

/-- C2 witness: exact reconstruction at the spec's concrete scenario
`"Line1\n\nLine2"` with `maxLen = 100`. -/
theorem segment_reconstruction_w :
    ((0 : Int) < 100) ∧
    (∀ p ∈ splitPara (preprocess_lyrics "Line1\n\nLine2").data,
      (p.length : Int) ≤ 100) ∧
    reassemble_segments
        ((split_into_segments (preprocess_lyrics "Line1\n\nLine2") 100).map SegTrans.mk)
      = preprocess_lyrics "Line1\n\nLine2" := by
  refine ⟨by decide, by decide, ?_⟩
  exact segment_reconstruction "Line1\n\nLine2" 100 (by decide) (by decide)

/-- C2 counterexample.  For `t = "aaa\nbbb"` (a single paragraph, already in
preprocessed form) and `maxLen = 4 > 0`, the over-long paragraph is split at
the line boundary into `["aaa", "bbb"]`, and joining with the paragraph
separator gives `"aaa\n\nbbb"`: the intra-paragraph `"\n"` has been replaced
by `"\n\n"`, which no restoration of per-segment trimmed whitespace can undo —
any padded join has at least 8 characters while the preprocessed input has 7.
So the claimed reconstruction-up-to-trimming fails. -/
theorem segment_reconstruction_cex :
    preprocess_lyrics "aaa\nbbb" = "aaa\nbbb" ∧
    split_into_segments (preprocess_lyrics "aaa\nbbb") 4 = ["aaa", "bbb"] ∧
    ¬ eqUpToSegTrim (split_into_segments (preprocess_lyrics "aaa\nbbb") 4)
        (preprocess_lyrics "aaa\nbbb") := by
  have h1 : preprocess_lyrics "aaa\nbbb" = "aaa\nbbb" := by decide
  have h2 : split_into_segments (preprocess_lyrics "aaa\nbbb") 4 = ["aaa", "bbb"] := by
    decide
  refine ⟨h1, h2, ?_⟩
  rw [h1]
  have h2b : split_into_segments "aaa\nbbb" 4 = ["aaa", "bbb"] := by decide
  rw [h2b]
  rintro ⟨pads, hlen, hws, heq⟩
  rcases pads with _ | ⟨p1, pads1⟩
  · simp at hlen
  rcases pads1 with _ | ⟨p2, pads2⟩
  · simp at hlen
  rcases pads2 with _ | ⟨p3, pads3⟩
  · have heq2 : (p1.1 ++ "aaa" ++ p1.2) ++ "\n\n" ++ (p2.1 ++ "bbb" ++ p2.2)
        = "aaa\nbbb" := heq
    have hlen2 := congrArg String.length heq2
    simp only [String.length_append] at hlen2
    have ha : ("aaa" : String).length = 3 := rfl
    have hb : ("bbb" : String).length = 3 := rfl
    have hn : ("\n\n" : String).length = 2 := rfl
    have hy : ("aaa\nbbb" : String).length = 7 := rfl
    rw [ha, hb, hn, hy] at hlen2
    omega
  · simp at hlen
